import Mathlib

set_option linter.unusedSectionVars false

/-!
# Verification of `diskvec` (krl/diskvec, src/lib.rs)

A shallow embedding of the `DiskVec` on-disk vector: the rank-layout index
algebra (`min_max`, `rank_ofs`), the open-time length recovery (binary search
over the highest mapped rank), and the single-threaded semantics of `new`
(open), `push`, `get`, `get_mut` and `len` over a model of the directory of
rank files.

Machine integers (`usize` on a 64-bit platform) are modelled as `Nat`;
where overflow matters, separate `*_checked` functions return `Option` and
fail exactly when an intermediate value would not fit in 64 bits.
-/

namespace DiskvecModel

/-- Mirror of the `Volatile` trait (src/lib.rs lines 21-28): a `Copy +
PartialEq` element type with a distinguished all-zero placeholder value. -/
class Volatile (α : Type) where
  ZEROED : α

/-- `const RANKS: usize = 128` (src/lib.rs line 30). -/
def RANKS : Nat := 128

/-- `const LOCKS: usize = 1024` (src/lib.rs line 31). -/
def LOCKS : Nat := 1024

/-- `min_max` (src/lib.rs lines 58-64): the inclusive logical-index bounds of
rank `rank`. -/
def min_max (rank : Nat) : Nat × Nat :=
  if rank = 0 then
    (0, 0)
  else
    (2 ^ rank - 1, 2 ^ (rank + 1) - 2)

/-- Binary width of `n` (number of binary digits), driven by structural fuel
so that it reduces in the kernel; `fuel ≥ n` suffices. -/
def bitwidthAux : Nat → Nat → Nat
  | 0, _ => 0
  | fuel + 1, n => if n = 0 then 0 else bitwidthAux fuel (n / 2) + 1

/-- Binary width of `n`: `0` for `0`, and the position of the highest set bit
plus one otherwise.  Proved equal to `Nat.size` below. -/
def bitwidth (n : Nat) : Nat := bitwidthAux n n

/-- `rank_ofs` (src/lib.rs lines 66-70): decompose a logical index into
`(rank, offset)`.  On a 64-bit platform the source computes the rank as
`mem::size_of::<usize>() * 8 - index.leading_zeros() - 1`, i.e.
`64 - (64 - bitwidth index) - 1`, which equals `bitwidth index - 1` for
every representable `index ≥ 1` (here `index = input + 1 ≥ 1` always). -/
def rank_ofs (index : Nat) : Nat × Nat :=
  let index := index + 1
  let rank := bitwidth index - 1
  (rank, index - 2 ^ rank)

/-- The number of value bits of `usize` on the 64-bit platform the crate's
tests run on. -/
def USIZE_BITS : Nat := 64

/-- `2usize.pow e`: fails (overflow panic in a debug build, wrap in release)
when the mathematical result does not fit in `usize`. -/
def pow2_checked (e : Nat) : Option Nat :=
  if 2 ^ e < 2 ^ USIZE_BITS then some (2 ^ e) else none

/-- `usize` subtraction: fails (underflow) when the subtrahend exceeds the
minuend. -/
def sub_checked (a b : Nat) : Option Nat :=
  if b ≤ a then some (a - b) else none

/-- `min_max` with the source's `usize` arithmetic made explicit: each
`2usize.pow(..)` intermediate must fit in 64 bits and each subtraction must
not underflow, exactly as in src/lib.rs lines 58-64 on a 64-bit platform. -/
def min_max_checked (rank : Nat) : Option (Nat × Nat) :=
  if rank = 0 then
    some (0, 0)
  else
    match pow2_checked rank with
    | none => none
    | some p =>
      match sub_checked p 1 with
      | none => none
      | some mn =>
        match pow2_checked (rank + 1) with
        | none => none
        | some q =>
          match sub_checked q 2 with
          | none => none
          | some mx => some (mn, mx)

/-- `rank_ofs` with the source's `usize` arithmetic made explicit: the
increment `index + 1` must fit in 64 bits and `2usize.pow(rank)` must fit,
exactly as in src/lib.rs lines 66-70 on a 64-bit platform. -/
def rank_ofs_checked (index : Nat) : Option (Nat × Nat) :=
  if index + 1 < 2 ^ USIZE_BITS then
    let index := index + 1
    let rank := bitwidth index - 1
    match pow2_checked rank with
    | none => none
    | some p => some (rank, index - p)
  else
    none

/-- `format!("{}", rank)` (src/lib.rs line 125): plain decimal rendering of
the rank number, used when `new` probes the directory for rank files. -/
def format_display (n : Nat) : String := Nat.repr n

/-- `format!("{:?}", rank)` (src/lib.rs line 246): the `Debug` rendering of
the rank number, used when `push` creates a new rank file.  Rust's core
library implements `Debug` for the unsigned integer types by forwarding to
the `Display` implementation (the `debug!` macro in `core/src/fmt/num.rs`),
so for a `usize` this is the same plain decimal string with no quotes. -/
def format_debug (n : Nat) : String := Nat.repr n

/-! ## The container state and the directory of rank files

The source's `DiskVec` holds a fixed table of `RANKS` optional memory
mappings, an `initialized` counter of mapped ranks, a `len` counter, the
directory path, a growth mutex and `LOCKS` per-slot write mutexes.  In this
single-threaded model the mutexes have no observable effect and the rank
table is a function from rank numbers to an optional pair of the backing
file's name and the mapped contents (a list of `2 ^ rank` slots).  The
directory is a map from file names to file contents; a memory mapping is a
view of its backing file, so mapped contents live in the container state and
are flushed back to their file names when the container is dropped
(`close`). -/

/-- A directory of rank files: file name to contents. -/
def Disk (α : Type) := String → Option (List α)

/-- The empty (fresh) directory. -/
def emptyDisk (α : Type) : Disk α := fun _ => none

/-- Create or overwrite one file. -/
def diskWrite (d : Disk α) (name : String) (content : List α) : Disk α :=
  fun n => if n = name then some content else d n

/-- The in-memory state of a `DiskVec<T>` (src/lib.rs lines 45-53), minus
the mutexes (no observable single-threaded effect) and the directory path
(the `Disk` is already scoped to the container's directory). -/
structure DiskVec (α : Type) where
  ranks : Nat → Option (String × List α)
  initialized : Nat
  len : Nat

/-- The result of a slot access: the source's `get` returns `Option<&T>` but
panics (`expect("accessing uninitialized rank")`) when the rank table entry
for a rank below `initialized` holds no mapping; reads past a mapping's end
are likewise fatal, never values. -/
inductive GetResult (α : Type) where
  | absent : GetResult α
  | found : α → GetResult α
  | panicked : GetResult α
deriving DecidableEq

variable {α : Type} [Volatile α] [DecidableEq α]

/-- `DiskVec::get` (src/lib.rs lines 180-200): decompose the index, check the
rank against `initialized`, read the slot and compare against the zero
placeholder. -/
def get (s : DiskVec α) (idx : Nat) : GetResult α :=
  if (rank_ofs idx).1 < s.initialized then
    match s.ranks (rank_ofs idx).1 with
    | none => GetResult.panicked
    | some pc =>
      match pc.2.get? (rank_ofs idx).2 with
      | none => GetResult.panicked
      | some v =>
        if v = Volatile.ZEROED then GetResult.absent else GetResult.found v
  else
    GetResult.absent

/-- `DiskVec::len` (src/lib.rs lines 229-231). -/
def len (s : DiskVec α) : Nat := s.len

/-- The growth step of `push` (src/lib.rs lines 241-255): when the claimed
rank is not yet covered by `initialized`, create its file (named
`format!("{:?}", rank)`), size it to `2 ^ rank` zero-filled slots, map it,
install the mapping and bump `initialized`.  The double-checked re-read of
`initialized` under the growth mutex collapses in a single-threaded run. -/
def growIfNeeded (s : DiskVec α) (rank : Nat) : DiskVec α :=
  if s.initialized ≤ rank then
    { s with
      ranks := fun r =>
        if r = rank then
          some (format_debug rank, List.replicate (2 ^ rank) (Volatile.ZEROED : α))
        else s.ranks r,
      initialized := s.initialized + 1 }
  else s

/-- The final store of `push` (src/lib.rs lines 257-267), and likewise the
store through a `get_mut` handle: overwrite one slot of one mapped rank.
(Storing through an absent mapping panics in the source; the model leaves
the absent entry unchanged.) -/
def writeSlot (s : DiskVec α) (rank ofs : Nat) (t : α) : DiskVec α :=
  { s with
    ranks := fun r =>
      if r = rank then (s.ranks rank).map (fun pc => (pc.1, pc.2.set ofs t))
      else s.ranks r }

/-- `DiskVec::push` (src/lib.rs lines 234-269), success path: fetch-and-add
the length counter to claim an index, decompose it, grow when the claimed
rank is not yet mapped, then write the value through the mapping.  The debug
assertion `t != T::ZEROED` has no effect on the state (the claims carry the
non-zero hypothesis explicitly). -/
def push (s : DiskVec α) (t : α) : DiskVec α × Nat :=
  (writeSlot (growIfNeeded { s with len := s.len + 1 } (rank_ofs s.len).1)
      (rank_ofs s.len).1 (rank_ofs s.len).2 t,
    s.len)

/-- `DiskVec::push` when growth is required and the I/O fails: one of
`File::create`, `set_len` or `Mmap::open_path` (src/lib.rs lines 247-251)
returns `Err` and the `?` operator propagates it.  The length counter has
already been fetch-and-added; no mapping is installed, `initialized` is not
bumped and no slot is written. -/
def pushGrowFail (s : DiskVec α) : DiskVec α × Nat :=
  ({ s with len := s.len + 1 }, s.len)

/-- The observable effect of `DiskVec::get_mut` (src/lib.rs lines 203-226)
followed by a store of `t` through the returned `MutableReference`: the
handle is produced only when the rank is initialized and the slot holds a
non-zero value; otherwise no mutation happens.  (If the rank table entry is
absent below `initialized` the source panics; no mutation happens then
either.) -/
def set_via_mut (s : DiskVec α) (idx : Nat) (t : α) : DiskVec α :=
  if (rank_ofs idx).1 < s.initialized then
    match s.ranks (rank_ofs idx).1 with
    | none => s
    | some pc =>
      match pc.2.get? (rank_ofs idx).2 with
      | none => s
      | some v =>
        if v = Volatile.ZEROED then s
        else writeSlot s (rank_ofs idx).1 (rank_ofs idx).2 t
  else
    s

/-- The rank-file scan of `DiskVec::new` (src/lib.rs lines 122-134): for
`rank = 0, 1, ...` probe the directory for a file named
`format!("{}", rank)`; map each file found and count it in `n_ranks`; stop at
the first missing file (or after `RANKS` probes).  `fuel` is the number of
loop iterations left, so the call of interest is `fuel = RANKS`, `rank = 0`,
`n_ranks = 0`. -/
def openScan (disk : Disk α) :
    (Nat → Option (String × List α)) → Nat → Nat → Nat →
      (Nat → Option (String × List α)) × Nat
  | ranks, _, n_ranks, 0 => (ranks, n_ranks)
  | ranks, rank, n_ranks, fuel + 1 =>
    match disk (format_display rank) with
    | some content =>
      openScan disk
        (fun r => if r = rank then some (format_display rank, content) else ranks r)
        (rank + 1) (n_ranks + 1) fuel
    | none => (ranks, n_ranks)

/-- One slot read during length recovery (src/lib.rs lines 141-149): the
probe index is decomposed and the slot is read through the rank table.  The
source panics on an absent mapping and reads out of bounds past a short one;
recovery only ever probes inside the highest mapped rank (proved below), so
the `ZEROED` fallback of this model is never exercised from `openDV`. -/
def slotOf (ranks : Nat → Option (String × List α)) (p : Nat) : α :=
  match ranks (rank_ofs p).1 with
  | none => Volatile.ZEROED
  | some pc => (pc.2.get? (rank_ofs p).2).getD Volatile.ZEROED

/-- The length-recovery loop of `DiskVec::new` (src/lib.rs lines 139-164):
binary search on `[mn, mx]` for the boundary between non-zero and zero
slots.  `fuel` bounds the number of iterations; `mx - mn + 1` iterations
always suffice (proved below), so `recover_len` runs the loop with exactly
that much fuel and never hits the out-of-fuel fallback. -/
def searchLoop (read : Nat → α) : Nat → Nat → Nat → Nat
  | 0, mn, _ => mn
  | fuel + 1, mn, mx =>
    let probe := mn + (mx - mn) / 2
    if read probe ≠ Volatile.ZEROED then
      if mn = mx then mn + 1 else searchLoop read fuel (probe + 1) mx
    else
      if mn = mx then mn else searchLoop read fuel mn probe

/-- Length recovery at open time (src/lib.rs lines 136-165): zero when no
rank file was mapped, otherwise the binary search over the bounds of the
highest mapped rank. -/
def recover_len (ranks : Nat → Option (String × List α)) (n_ranks : Nat) : Nat :=
  if 0 < n_ranks then
    searchLoop (slotOf ranks)
      ((min_max (n_ranks - 1)).2 - (min_max (n_ranks - 1)).1 + 1)
      (min_max (n_ranks - 1)).1 (min_max (n_ranks - 1)).2
  else 0

/-- `DiskVec::new` (src/lib.rs lines 103-177): map the contiguous run of
existing rank files, set `initialized` to their count and recover `len`.
(The debug assertion that `T::ZEROED` is the all-zero bit pattern is a
property of the element type, not of the state.) -/
def openDV (disk : Disk α) : DiskVec α :=
  { ranks := (openScan disk (fun _ => none) 0 0 RANKS).1
    initialized := (openScan disk (fun _ => none) 0 0 RANKS).2
    len := recover_len (openScan disk (fun _ => none) 0 0 RANKS).1
      (openScan disk (fun _ => none) 0 0 RANKS).2 }

/-- Dropping the container: every memory mapping is flushed to its backing
file, so the directory afterwards holds, at each mapped rank's file name, the
final mapped contents. -/
def close (s : DiskVec α) (disk : Disk α) : Disk α :=
  (List.range RANKS).foldl
    (fun d r =>
      match s.ranks r with
      | some pc => diskWrite d pc.1 pc.2
      | none => d)
    disk

/-- A sequence of single-threaded pushes. -/
def pushAll (s : DiskVec α) : List α → DiskVec α
  | [] => s
  | v :: vs => pushAll (push s v).1 vs

/-! ## Structural invariants and reachability -/

/-- Rank-table well-formedness: a rank holds a mapping exactly when it is
below the `initialized` counter. -/
def RankWF (s : DiskVec α) : Prop :=
  ∀ r : Nat, (s.ranks r).isSome ↔ r < s.initialized

/-- Every mapping has the size of its rank: `2 ^ r` slots. -/
def SizeWF (s : DiskVec α) : Prop :=
  ∀ r : Nat, ∀ pc : String × List α, s.ranks r = some pc → pc.2.length = 2 ^ r

/-- The length counter never runs ahead of the mapped capacity: the rank of
the next index to be claimed is at most `initialized`. -/
def LenWF (s : DiskVec α) : Prop :=
  (rank_ofs s.len).1 ≤ s.initialized

/-- A container state reachable from `new` (open on an arbitrary directory)
by any single-threaded sequence of `push`, `get`, `get_mut` and `len` calls
in which every `push` completes successfully.  `get` and `len` do not change
the state; a `get_mut` whose handle is used to store a value acts as
`set_via_mut`.  A `push` whose growth I/O fails is deliberately excluded:
that transition is `Step.pushFailed`, and `ReachIO` below closes the
reachable set over it. -/
inductive Reach : DiskVec α → Prop where
  | opened (disk : Disk α) : Reach (openDV disk)
  | pushed {s : DiskVec α} (t : α) : Reach s → Reach (push s t).1
  | mutated {s : DiskVec α} (idx : Nat) (t : α) :
      Reach s → Reach (set_via_mut s idx t)

/-- One state transition of an open container: a successful `push`, a `push`
whose growth I/O fails (possible only when the claimed rank is not yet
covered by `initialized`), or a store through a `get_mut` handle. -/
inductive Step : DiskVec α → DiskVec α → Prop where
  | pushed (s : DiskVec α) (t : α) : Step s (push s t).1
  | pushFailed (s : DiskVec α) (h : s.initialized ≤ (rank_ofs s.len).1) :
      Step s (pushGrowFail s).1
  | mutated (s : DiskVec α) (idx : Nat) (t : α) : Step s (set_via_mut s idx t)

/-- Any number of state transitions. -/
inductive Steps : DiskVec α → DiskVec α → Prop where
  | refl (s : DiskVec α) : Steps s s
  | tail {s s' s'' : DiskVec α} : Steps s s' → Step s' s'' → Steps s s''

/-- A container state reachable from `new` (open on an arbitrary directory)
by any sequence of operations, pushes whose growth I/O fails included.
This is the full reachable set of the source: `Reach` is the subset where
every push succeeds. -/
def ReachIO (s : DiskVec α) : Prop :=
  ∃ disk : Disk α, Steps (openDV disk) s

/-- The slot of index `idx`, if its rank is mapped at all, reads as the zero
placeholder (or is out of the mapping's range). -/
def HoleSlot (s : DiskVec α) (idx : Nat) : Prop :=
  ∀ pc : String × List α, s.ranks (rank_ofs idx).1 = some pc →
    pc.2.get? (rank_ofs idx).2 = none ∨
      pc.2.get? (rank_ofs idx).2 = some (Volatile.ZEROED : α)

/-- Index `idx` is a hole of state `s`: it has been claimed, and its slot
reads as empty. -/
def HoleAt (s : DiskVec α) (idx : Nat) : Prop :=
  idx < s.len ∧ HoleSlot s idx

/-! ## Reference contents after a sequence of pushes -/

/-- The value which the slot of logical index `i` holds after the values `vs`
have been pushed, in order, into a fresh container: the `i`-th pushed value,
or the zero placeholder if fewer than `i + 1` values have been pushed. -/
def slotValue (vs : List α) (i : Nat) : α :=
  (vs.get? i).getD Volatile.ZEROED

/-- The contents of rank `r`'s mapping after the values `vs` have been pushed
into a fresh container: `2 ^ r` slots, slot `o` holding the value of logical
index `2 ^ r - 1 + o`. -/
def rankContent (vs : List α) (r : Nat) : List α :=
  (List.range (2 ^ r)).map (fun o => slotValue vs (2 ^ r - 1 + o))

/-- The state reached after pushing `vs`, in order, into a fresh container:
`len` counts the values, `initialized` covers exactly the ranks needed, and
each mapped rank holds its file name (as created by growth) and its slots. -/
def AfterPushes (vs : List α) (s : DiskVec α) : Prop :=
  s.len = vs.length ∧ s.initialized = bitwidth vs.length ∧
    (∀ r : Nat, r < bitwidth vs.length →
      s.ranks r = some (format_debug r, rankContent vs r)) ∧
    (∀ r : Nat, bitwidth vs.length ≤ r → s.ranks r = none)

/-- The element type used by concrete witnesses: natural numbers with `0` as
the zero placeholder (a stand-in for the crate's `CheckSummedUsize`). -/
instance : Volatile Nat := ⟨0⟩

/-! ## Basic facts about the index algebra -/

theorem bitwidthAux_lt {fuel n : Nat} (h : n ≤ fuel) :
    n < 2 ^ bitwidthAux fuel n := by
  induction fuel generalizing n with
  | zero =>
    interval_cases n
    simp [bitwidthAux]
  | succ fuel ih =>
    rcases Nat.eq_zero_or_pos n with h0 | h0
    · subst h0; simp [bitwidthAux]
    · have hhalf : n / 2 ≤ fuel := by omega
      have := ih hhalf
      have hpow := Nat.pow_succ 2 (bitwidthAux fuel (n / 2))
      simp only [bitwidthAux, Nat.pos_iff_ne_zero.mp h0, if_false]
      omega

theorem bitwidthAux_pos {fuel n : Nat} (h : n ≤ fuel) (h0 : 0 < n) :
    0 < bitwidthAux fuel n := by
  cases fuel with
  | zero => omega
  | succ fuel => simp [bitwidthAux, Nat.pos_iff_ne_zero.mp h0]

theorem bitwidthAux_le {fuel n : Nat} (h : n ≤ fuel) (h0 : 0 < n) :
    2 ^ (bitwidthAux fuel n - 1) ≤ n := by
  induction fuel generalizing n with
  | zero => omega
  | succ fuel ih =>
    simp only [bitwidthAux, Nat.pos_iff_ne_zero.mp h0, if_false,
      Nat.add_sub_cancel]
    rcases Nat.eq_zero_or_pos (n / 2) with hh | hh
    · have : bitwidthAux fuel (n / 2) = 0 := by
        rw [hh]; cases fuel <;> simp [bitwidthAux]
      rw [this]
      simpa using h0
    · have hhalf : n / 2 ≤ fuel := by omega
      have h1 := ih hhalf hh
      have h2 := bitwidthAux_pos hhalf hh
      have h3 : 2 ^ bitwidthAux fuel (n / 2) =
          2 * 2 ^ (bitwidthAux fuel (n / 2) - 1) := by
        conv_lhs => rw [← Nat.succ_pred_eq_of_pos h2]
        rw [Nat.pow_succ, Nat.pred_eq_sub_one, Nat.mul_comm]
      omega

/-- The fuel-driven `bitwidth` agrees with Mathlib's `Nat.size`. -/
theorem bitwidth_eq_size (n : Nat) : bitwidth n = Nat.size n := by
  rcases Nat.eq_zero_or_pos n with h0 | h0
  · subst h0; simp [bitwidth, bitwidthAux]
  · apply Nat.le_antisymm
    · have hpos : 0 < bitwidth n := bitwidthAux_pos (Nat.le_refl n) h0
      have := bitwidthAux_le (Nat.le_refl n) h0
      have hlt : bitwidth n - 1 < Nat.size n := Nat.lt_size.mpr this
      omega
    · exact Nat.size_le.mpr (bitwidthAux_lt (Nat.le_refl n))

theorem min_max_eq (rank : Nat) :
    min_max rank = (2 ^ rank - 1, 2 ^ (rank + 1) - 2) := by
  unfold min_max
  rcases Nat.eq_zero_or_pos rank with h | h
  · subst h; simp
  · rw [if_neg (Nat.pos_iff_ne_zero.mp h)]

theorem size_sub_one_spec (n : Nat) (hn : 0 < n) :
    2 ^ (Nat.size n - 1) ≤ n ∧ n < 2 ^ (Nat.size n - 1 + 1) := by
  have hpos : 0 < Nat.size n := Nat.size_pos.mpr hn
  constructor
  · exact Nat.lt_size.mp (Nat.sub_lt hpos Nat.one_pos)
  · have : Nat.size n - 1 + 1 = Nat.size n := Nat.succ_pred_eq_of_pos hpos
    rw [this]
    exact Nat.lt_size_self n

theorem rank_ofs_spec (i : Nat) :
    2 ^ (rank_ofs i).1 ≤ i + 1 ∧ i + 1 < 2 ^ ((rank_ofs i).1 + 1) := by
  have := size_sub_one_spec (i + 1) (Nat.succ_pos i)
  simpa [rank_ofs, bitwidth_eq_size] using this

/-- The offset returned by `rank_ofs` is a valid slot index of its rank. -/
theorem rank_ofs_ofs_lt (i : Nat) : (rank_ofs i).2 < 2 ^ (rank_ofs i).1 := by
  obtain ⟨h1, h2⟩ := rank_ofs_spec i
  have : (rank_ofs i).2 = i + 1 - 2 ^ (rank_ofs i).1 := by
    simp [rank_ofs]
  rw [this]
  have := Nat.pow_succ 2 (rank_ofs i).1
  omega

/-- Recomposition: `2 ^ rank + ofs - 1` recovers the logical index. -/
theorem rank_ofs_recompose (i : Nat) :
    2 ^ (rank_ofs i).1 + (rank_ofs i).2 - 1 = i := by
  obtain ⟨h1, _⟩ := rank_ofs_spec i
  have : (rank_ofs i).2 = i + 1 - 2 ^ (rank_ofs i).1 := by
    simp [rank_ofs]
  omega

/-- Characterization: the slot `(r, o)` with `o < 2 ^ r` is the decomposition
of the logical index `2 ^ r - 1 + o`. -/
theorem rank_ofs_eq_of (r o : Nat) (ho : o < 2 ^ r) :
    rank_ofs (2 ^ r - 1 + o) = (r, o) := by
  have hpow : 0 < 2 ^ r := Nat.pos_pow_of_pos r (by norm_num)
  have hup : 2 ^ r - 1 + o + 1 = 2 ^ r + o := by omega
  have hsize : Nat.size (2 ^ r + o) = r + 1 := by
    have h1 : 2 ^ r + o < 2 ^ (r + 1) := by
      have := Nat.pow_succ 2 r
      omega
    have hle : Nat.size (2 ^ r + o) ≤ r + 1 := Nat.size_le.mpr h1
    have hge : r < Nat.size (2 ^ r + o) :=
      Nat.lt_size.mpr (Nat.le_add_right _ _)
    omega
  unfold rank_ofs
  simp only [hup, bitwidth_eq_size, hsize]
  have : r + 1 - 1 = r := rfl
  rw [this, Prod.mk.injEq]
  omega

/-- `rank_ofs` is injective: distinct logical indices live in distinct
slots. -/
theorem rank_ofs_injective {i j : Nat} (h : rank_ofs i = rank_ofs j) :
    i = j := by
  have hi := rank_ofs_recompose i
  have hj := rank_ofs_recompose j
  rw [h] at hi
  omega

/-- The two bounds of a rank are ordered. -/
theorem min_max_le (rank : Nat) : (min_max rank).1 ≤ (min_max rank).2 := by
  rw [min_max_eq]
  have : (1 : Nat) ≤ 2 ^ rank := Nat.one_le_two_pow
  have := Nat.pow_succ 2 rank
  simp only []
  omega

/-! ## The length-recovery binary search -/

/-- The search loop is insensitive to its fuel once the fuel exceeds the
width of the interval: the loop halts within `mx - mn + 1` iterations for
every `read` function. -/
theorem searchLoop_fuel (read : Nat → α) :
    ∀ f1 f2 mn mx : Nat, mn ≤ mx → mx - mn < f1 → mx - mn < f2 →
      searchLoop read f1 mn mx = searchLoop read f2 mn mx := by
  intro f1
  induction f1 with
  | zero => intro f2 mn mx h h1 h2; omega
  | succ f1 ih =>
    intro f2 mn mx h h1 h2
    cases f2 with
    | zero => omega
    | succ f2 =>
      have hhalf : (mx - mn) / 2 ≤ mx - mn := Nat.div_le_self _ _
      simp only [searchLoop]
      by_cases hz : read (mn + (mx - mn) / 2) = Volatile.ZEROED
      · simp only [hz, ne_eq, not_true_eq_false, if_false, ite_not]
        by_cases he : mn = mx
        · simp [he]
        · have hlt : mn < mx := by omega
          have hstep : (mx - mn) / 2 < mx - mn := Nat.div_lt_self (by omega) (by omega)
          simp only [he, if_false]
          exact ih f2 mn (mn + (mx - mn) / 2) (by omega) (by omega) (by omega)
      · simp only [hz, ne_eq, not_false_eq_true, if_true]
        by_cases he : mn = mx
        · simp [he]
        · have hlt : mn < mx := by omega
          have hstep : (mx - mn) / 2 < mx - mn := Nat.div_lt_self (by omega) (by omega)
          simp only [he, if_false]
          exact ih f2 (mn + (mx - mn) / 2 + 1) mx (by omega) (by omega) (by omega)

/-- The search result lies in `[mn, mx + 1]`. -/
theorem searchLoop_range (read : Nat → α) :
    ∀ fuel mn mx : Nat, mn ≤ mx → mx - mn < fuel →
      mn ≤ searchLoop read fuel mn mx ∧ searchLoop read fuel mn mx ≤ mx + 1 := by
  intro fuel
  induction fuel with
  | zero => intro mn mx h h1; omega
  | succ fuel ih =>
    intro mn mx h h1
    simp only [searchLoop]
    by_cases hz : read (mn + (mx - mn) / 2) = Volatile.ZEROED
    · simp only [hz, ne_eq, not_true_eq_false, if_false, ite_not]
      by_cases he : mn = mx
      · simp [he]
      · have hlt : mn < mx := by omega
        have hstep : (mx - mn) / 2 < mx - mn := Nat.div_lt_self (by omega) (by omega)
        simp only [he, if_false]
        have := ih mn (mn + (mx - mn) / 2) (by omega) (by omega)
        omega
    · simp only [hz, ne_eq, not_false_eq_true, if_true]
      by_cases he : mn = mx
      · simp [he]
      · have hlt : mn < mx := by omega
        have hstep : (mx - mn) / 2 < mx - mn := Nat.div_lt_self (by omega) (by omega)
        simp only [he, if_false]
        have := ih (mn + (mx - mn) / 2 + 1) mx (by omega) (by omega)
        omega

/-- Correctness of the search on a monotone boundary: if on `[mn, mx]` the
slots reading non-zero are exactly those below `m`, the loop returns `m`. -/
theorem searchLoop_correct (read : Nat → α) (m : Nat) :
    ∀ fuel mn mx : Nat, mn ≤ mx → mx - mn < fuel → mn ≤ m → m ≤ mx + 1 →
      (∀ p : Nat, mn ≤ p → p ≤ mx → (read p ≠ Volatile.ZEROED ↔ p < m)) →
      searchLoop read fuel mn mx = m := by
  intro fuel
  induction fuel with
  | zero => intro mn mx h h1 _ _ _; omega
  | succ fuel ih =>
    intro mn mx h h1 hm1 hm2 hread
    have hple : mn + (mx - mn) / 2 ≤ mx := by
      have := Nat.div_le_self (mx - mn) 2
      omega
    have hprobe := hread (mn + (mx - mn) / 2) (by omega) hple
    simp only [searchLoop]
    by_cases hz : read (mn + (mx - mn) / 2) = Volatile.ZEROED
    · have hup : m ≤ mn + (mx - mn) / 2 := by
        rcases Nat.lt_or_ge (mn + (mx - mn) / 2) m with hlt | hge
        · exact absurd (hprobe.mpr hlt) (by simpa using hz)
        · exact hge
      simp only [hz, ne_eq, not_true_eq_false, if_false, ite_not]
      by_cases he : mn = mx
      · simp only [he, if_true]
        omega
      · have hlt : mn < mx := by omega
        have hstep : (mx - mn) / 2 < mx - mn := Nat.div_lt_self (by omega) (by omega)
        simp only [he, if_false]
        exact ih mn (mn + (mx - mn) / 2) (by omega) (by omega) hm1 (by omega)
          (fun p hp1 hp2 => hread p hp1 (by omega))
    · have hlow : mn + (mx - mn) / 2 < m := hprobe.mp hz
      simp only [hz, ne_eq, not_false_eq_true, if_true]
      by_cases he : mn = mx
      · simp only [he, if_true]
        omega
      · have hlt : mn < mx := by omega
        have hstep : (mx - mn) / 2 < mx - mn := Nat.div_lt_self (by omega) (by omega)
        simp only [he, if_false]
        exact ih (mn + (mx - mn) / 2 + 1) mx (by omega) (by omega) (by omega) hm2
          (fun p hp1 hp2 => hread p (by omega) hp2)

/-! ## Claim C9: termination of the recovery loop -/

/-- C9: the length-recovery binary search halts for every `n_ranks ≥ 1` and
every contents of the rank table, contiguous prefix or not: every fuel
beyond the width of `[min(k), max(k)]` yields the same answer as the bounded
loop `recover_len` runs, because each iteration either halts (at
`min = max`) or strictly shrinks the interval via `min := probe + 1` or
`max := probe`. -/
theorem C9_recovery_search_halts (ranks : Nat → Option (String × List α))
    (n_ranks : Nat) (hn : 1 ≤ n_ranks) (fuel : Nat)
    (hf : (min_max (n_ranks - 1)).2 - (min_max (n_ranks - 1)).1 < fuel) :
    searchLoop (slotOf ranks) fuel
        (min_max (n_ranks - 1)).1 (min_max (n_ranks - 1)).2
      = recover_len ranks n_ranks := by
  unfold recover_len
  rw [if_pos (by omega)]
  exact searchLoop_fuel (slotOf ranks) fuel _ _ _
    (min_max_le (n_ranks - 1)) hf (by omega)

/-- C9 witness: a one-rank table whose single slot is non-zero; any fuel at
least `1` computes the recovered length `1`. -/
theorem C9_recovery_search_halts_witness :
    searchLoop (slotOf (fun r => if r = 0 then some ("0", [7]) else none)) 5
        (min_max 0).1 (min_max 0).2
      = recover_len (fun r => if r = 0 then some ("0", [(7 : Nat)]) else none) 1 :=
  C9_recovery_search_halts (fun r => if r = 0 then some ("0", [7]) else none)
    1 (by decide) 5 (by decide)

/-! ## Invariants established at open time -/

/-- Ranks strictly follow the decomposition of successive indices: the rank
grows by at most one from one logical index to the next. -/
theorem rank_ofs_succ_le (i : Nat) :
    (rank_ofs (i + 1)).1 ≤ (rank_ofs i).1 + 1 := by
  simp only [rank_ofs, bitwidth_eq_size]
  have h1 : i + 1 < 2 ^ Nat.size (i + 1) := Nat.lt_size_self (i + 1)
  have h2 : Nat.size (i + 1 + 1) ≤ Nat.size (i + 1) + 1 := by
    apply Nat.size_le.mpr
    have := Nat.pow_succ 2 (Nat.size (i + 1))
    omega
  have h3 : 0 < Nat.size (i + 1) := Nat.size_pos.mpr (Nat.succ_pos i)
  omega

/-- If `n ≤ 2 ^ k - 1` then the rank of index `n` is at most `k`. -/
theorem rank_ofs_le_of_le {n k : Nat} (h : n + 1 ≤ 2 ^ k) :
    (rank_ofs n).1 ≤ k := by
  simp only [rank_ofs, bitwidth_eq_size]
  have : Nat.size (n + 1) ≤ k + 1 := by
    apply Nat.size_le.mpr
    calc n + 1 ≤ 2 ^ k := h
    _ < 2 ^ (k + 1) := Nat.pow_lt_pow_right (by norm_num) (Nat.lt_succ_self k)
  omega

/-- The scan of `new` yields a rank table whose mapped entries are exactly
the ranks below the returned `n_ranks`. -/
theorem openScan_rankWF (disk : Disk α) :
    ∀ fuel : Nat, ∀ ranks : Nat → Option (String × List α), ∀ rank : Nat,
      (∀ r : Nat, (ranks r).isSome ↔ r < rank) →
      ∀ r : Nat, (((openScan disk ranks rank rank fuel).1 r).isSome ↔
        r < (openScan disk ranks rank rank fuel).2) := by
  intro fuel
  induction fuel with
  | zero => intro ranks rank h r; exact h r
  | succ fuel ih =>
    intro ranks rank h r
    simp only [openScan]
    cases hdisk : disk (format_display rank) with
    | none => exact h r
    | some content =>
      exact ih _ (rank + 1)
        (fun r' => by
          by_cases hr' : r' = rank
          · subst hr'; simp
          · simp only [hr', if_false]
            rw [h r']
            omega) r

theorem openDV_rankWF (disk : Disk α) : RankWF (openDV disk) := by
  intro r
  exact openScan_rankWF disk RANKS (fun _ => none) 0 (by simp) r

/-- The recovered length never exceeds the capacity of the mapped ranks. -/
theorem recover_len_le (ranks : Nat → Option (String × List α)) (n_ranks : Nat) :
    recover_len ranks n_ranks + 1 ≤ 2 ^ n_ranks := by
  unfold recover_len
  rcases Nat.eq_zero_or_pos n_ranks with h0 | h0
  · subst h0
    simpa using Nat.one_le_two_pow
  · rw [if_pos h0]
    have hmm1 : (min_max (n_ranks - 1)).1 = 2 ^ (n_ranks - 1) - 1 := by
      rw [min_max_eq]
    have hmm2 : (min_max (n_ranks - 1)).2 = 2 ^ (n_ranks - 1 + 1) - 2 := by
      rw [min_max_eq]
    have hle := min_max_le (n_ranks - 1)
    have hr := searchLoop_range (slotOf ranks)
      ((min_max (n_ranks - 1)).2 - (min_max (n_ranks - 1)).1 + 1)
      (min_max (n_ranks - 1)).1 (min_max (n_ranks - 1)).2 hle (by omega)
    have hone : (1 : Nat) ≤ 2 ^ (n_ranks - 1) := Nat.one_le_two_pow
    have hsucc : 2 ^ (n_ranks - 1 + 1) = 2 ^ (n_ranks - 1) * 2 :=
      Nat.pow_succ 2 (n_ranks - 1)
    have hn : n_ranks - 1 + 1 = n_ranks := by omega
    rw [hn] at hsucc
    rw [hmm1, hmm2] at hr ⊢
    omega

theorem openDV_lenWF (disk : Disk α) : LenWF (openDV disk) := by
  apply rank_ofs_le_of_le
  apply recover_len_le

/-! ## Field equations for the operations -/

theorem push_fst (s : DiskVec α) (t : α) :
    (push s t).1 =
      writeSlot (growIfNeeded { s with len := s.len + 1 } (rank_ofs s.len).1)
        (rank_ofs s.len).1 (rank_ofs s.len).2 t := rfl

theorem push_snd (s : DiskVec α) (t : α) : (push s t).2 = s.len := rfl

theorem writeSlot_initialized (s : DiskVec α) (rank ofs : Nat) (t : α) :
    (writeSlot s rank ofs t).initialized = s.initialized := rfl

theorem writeSlot_len (s : DiskVec α) (rank ofs : Nat) (t : α) :
    (writeSlot s rank ofs t).len = s.len := rfl

theorem writeSlot_ranks_ne {r rank : Nat} (h : r ≠ rank)
    (s : DiskVec α) (ofs : Nat) (t : α) :
    (writeSlot s rank ofs t).ranks r = s.ranks r := by
  simp [writeSlot, h]

theorem writeSlot_ranks_self (s : DiskVec α) (rank ofs : Nat) (t : α) :
    (writeSlot s rank ofs t).ranks rank =
      (s.ranks rank).map (fun pc => (pc.1, pc.2.set ofs t)) := by
  simp [writeSlot]

theorem writeSlot_isSome (s : DiskVec α) (rank ofs : Nat) (t : α) (r : Nat) :
    ((writeSlot s rank ofs t).ranks r).isSome = (s.ranks r).isSome := by
  by_cases h : r = rank
  · subst h
    rw [writeSlot_ranks_self]
    cases s.ranks r <;> rfl
  · rw [writeSlot_ranks_ne h]

theorem growIfNeeded_len (s : DiskVec α) (rank : Nat) :
    (growIfNeeded s rank).len = s.len := by
  unfold growIfNeeded
  split <;> rfl

theorem growIfNeeded_eq_of_le (s : DiskVec α) (rank : Nat)
    (h : s.initialized ≤ rank) :
    growIfNeeded s rank =
      { s with
        ranks := fun r =>
          if r = rank then
            some (format_debug rank,
              List.replicate (2 ^ rank) (Volatile.ZEROED : α))
          else s.ranks r,
        initialized := s.initialized + 1 } := by
  unfold growIfNeeded
  rw [if_pos h]

theorem growIfNeeded_eq_of_lt (s : DiskVec α) (rank : Nat)
    (h : rank < s.initialized) :
    growIfNeeded s rank = s := by
  unfold growIfNeeded
  rw [if_neg (by omega)]

/-! ## Preservation of the invariants by the operations -/

theorem push_preserves_inv {s : DiskVec α} (t : α)
    (h1 : RankWF s) (h2 : LenWF s) :
    RankWF (push s t).1 ∧ LenWF (push s t).1 := by
  have hK := rank_ofs_succ_le s.len
  by_cases hgrow : s.initialized ≤ (rank_ofs s.len).1
  · have heq : (rank_ofs s.len).1 = s.initialized := Nat.le_antisymm h2 hgrow
    have hg := growIfNeeded_eq_of_le
        { s with len := s.len + 1 } (rank_ofs s.len).1 hgrow
    constructor
    · intro r
      rw [push_fst, writeSlot_isSome, writeSlot_initialized, hg]
      by_cases hr : r = (rank_ofs s.len).1
      · subst hr
        simp only [if_pos rfl, Option.isSome_some]
        constructor
        · intro
          omega
        · intro
          rfl
      · simp only [hr, if_false]
        rw [h1 r]
        omega
    · have : (push s t).1.len = s.len + 1 := by
        rw [push_fst, writeSlot_len, hg]
      have hinit : (push s t).1.initialized = s.initialized + 1 := by
        rw [push_fst, writeSlot_initialized, hg]
      unfold LenWF
      rw [this, hinit]
      omega
  · have hg := growIfNeeded_eq_of_lt
      { s with len := s.len + 1 } (rank_ofs s.len).1
      (Nat.not_le.mp hgrow)
    constructor
    · intro r
      rw [push_fst, writeSlot_isSome, writeSlot_initialized, hg]
      exact h1 r
    · have : (push s t).1.len = s.len + 1 := by
        rw [push_fst, writeSlot_len, hg]
      have hinit : (push s t).1.initialized = s.initialized := by
        rw [push_fst, writeSlot_initialized, hg]
      unfold LenWF
      rw [this, hinit]
      omega

/-- `set_via_mut` either leaves the state unchanged or performs a bare slot
write. -/
theorem set_via_mut_cases (s : DiskVec α) (idx : Nat) (t : α) :
    set_via_mut s idx t = s ∨
      set_via_mut s idx t =
        writeSlot s (rank_ofs idx).1 (rank_ofs idx).2 t := by
  unfold set_via_mut
  by_cases h : (rank_ofs idx).1 < s.initialized
  · rw [if_pos h]
    cases hrk : s.ranks (rank_ofs idx).1 with
    | none => exact Or.inl rfl
    | some pc =>
      dsimp only
      cases hg : pc.2.get? (rank_ofs idx).2 with
      | none => exact Or.inl rfl
      | some v =>
        dsimp only
        by_cases hz : v = Volatile.ZEROED
        · rw [if_pos hz]
          exact Or.inl rfl
        · rw [if_neg hz]
          exact Or.inr rfl
  · rw [if_neg h]
    exact Or.inl rfl

theorem set_via_mut_preserves_inv {s : DiskVec α} (idx : Nat) (t : α)
    (h1 : RankWF s) (h2 : LenWF s) :
    RankWF (set_via_mut s idx t) ∧ LenWF (set_via_mut s idx t) := by
  rcases set_via_mut_cases s idx t with h | h <;> rw [h]
  · exact ⟨h1, h2⟩
  · constructor
    · intro r
      rw [writeSlot_isSome, writeSlot_initialized]
      exact h1 r
    · unfold LenWF
      rw [writeSlot_len, writeSlot_initialized]
      exact h2

/-- Every reachable state satisfies the structural invariants. -/
theorem reach_inv {s : DiskVec α} (h : Reach s) : RankWF s ∧ LenWF s := by
  induction h with
  | opened disk => exact ⟨openDV_rankWF disk, openDV_lenWF disk⟩
  | pushed t _ ih => exact push_preserves_inv t ih.1 ih.2
  | mutated idx t _ ih => exact set_via_mut_preserves_inv idx t ih.1 ih.2

/-! ## Claim C7: contiguity of the rank table -/

/-- C7 counterexample: the claimed invariant fails in a state the source
can reach, because a `push` that returns an I/O error is still a push
operation.  Open a fresh directory; the first push fails its growth I/O
(claiming index `0`, mapping nothing); the second push succeeds, claims
index `1` and grows rank `1`.  The resulting state is reachable (`ReachIO`)
and has rank `1` mapped while rank `0` is not, with
`initialized = 1 < 1 + 1` — refuting both halves of the claimed
invariant. -/
theorem C7_gap_reachable_after_failed_push :
    ReachIO (push (pushGrowFail (openDV (emptyDisk Nat))).1 5).1 ∧
      ((push (pushGrowFail (openDV (emptyDisk Nat))).1 5).1.ranks 1).isSome
        = true ∧
      (push (pushGrowFail (openDV (emptyDisk Nat))).1 5).1.ranks 0 = none ∧
      (push (pushGrowFail (openDV (emptyDisk Nat))).1 5).1.initialized = 1 :=
  ⟨⟨emptyDisk Nat,
      Steps.tail
        (Steps.tail (Steps.refl _) (Step.pushFailed _ (by decide)))
        (Step.pushed _ 5)⟩,
    by decide, by decide, by decide⟩

/-- C7 (amended): in every container state reachable by `new` followed by
any sequence of `push`, `get`, `get_mut` and `len` calls in which every
`push` completes successfully, a mapped rank `r` implies that all ranks
`0..r` are mapped and that the initialized counter is at least `r + 1`;
equivalently, the mapped ranks are exactly those below `initialized`.  (A
push that fails its growth I/O can break the invariant, as the
counterexample above shows.) -/
theorem C7_rank_table_contiguous {s : DiskVec α} (h : Reach s) :
    (∀ r : Nat, (s.ranks r).isSome →
      (∀ r' : Nat, r' ≤ r → (s.ranks r').isSome) ∧ r + 1 ≤ s.initialized) ∧
    (∀ r : Nat, (s.ranks r).isSome ↔ r < s.initialized) := by
  obtain ⟨h1, -⟩ := reach_inv h
  refine ⟨fun r hr => ⟨fun r' hr' => ?_, ?_⟩, h1⟩
  · rw [h1 r']
    rw [h1 r] at hr
    omega
  · rw [h1 r] at hr
    omega

/-- C7 witness: the state reached by opening a fresh directory and pushing
one value has rank `0` mapped and `initialized` equal to `1`. -/
theorem C7_rank_table_contiguous_witness :
    (((push (openDV (emptyDisk Nat)) 5).1.ranks 0).isSome ↔
      0 < (push (openDV (emptyDisk Nat)) 5).1.initialized) :=
  (C7_rank_table_contiguous (Reach.pushed 5 (Reach.opened (emptyDisk Nat)))).2 0

/-! ## Reading slots -/

theorem get_eq_found {s : DiskVec α} {idx : Nat} (pc : String × List α)
    {v : α}
    (hinit : (rank_ofs idx).1 < s.initialized)
    (hrk : s.ranks (rank_ofs idx).1 = some pc)
    (hv : pc.2.get? (rank_ofs idx).2 = some v) (hz : v ≠ Volatile.ZEROED) :
    get s idx = GetResult.found v := by
  unfold get
  rw [if_pos hinit, hrk]
  dsimp only
  rw [hv]
  dsimp only
  rw [if_neg hz]

/-- Two states agree on `get idx` when they agree on the initialization
check, on whether the rank is mapped, and on the bytes of the slot itself. -/
theorem get_congr_slot {s s' : DiskVec α} (idx : Nat)
    (hinit : ((rank_ofs idx).1 < s.initialized) ↔
      ((rank_ofs idx).1 < s'.initialized))
    (hsome : (s.ranks (rank_ofs idx).1).isSome =
      (s'.ranks (rank_ofs idx).1).isSome)
    (hval : ∀ pc pc' : String × List α,
      s.ranks (rank_ofs idx).1 = some pc →
      s'.ranks (rank_ofs idx).1 = some pc' →
      pc.2.get? (rank_ofs idx).2 = pc'.2.get? (rank_ofs idx).2) :
    get s idx = get s' idx := by
  unfold get
  by_cases hc : (rank_ofs idx).1 < s.initialized
  · rw [if_pos hc, if_pos (hinit.mp hc)]
    cases h1 : s.ranks (rank_ofs idx).1 with
    | none =>
      cases h2 : s'.ranks (rank_ofs idx).1 with
      | none => rfl
      | some pc' =>
        rw [h1, h2] at hsome
        exact Bool.noConfusion hsome
    | some pc =>
      cases h2 : s'.ranks (rank_ofs idx).1 with
      | none =>
        rw [h1, h2] at hsome
        exact Bool.noConfusion hsome
      | some pc' =>
        dsimp only
        rw [hval pc pc' h1 h2]
  · rw [if_neg hc, if_neg (fun hc' => hc (hinit.mpr hc'))]

/-- Distinct indices of the same rank have distinct offsets. -/
theorem rank_ofs_ne_ofs {i j : Nat} (hij : i ≠ j)
    (hr : (rank_ofs i).1 = (rank_ofs j).1) :
    (rank_ofs i).2 ≠ (rank_ofs j).2 := by
  intro ho
  exact hij (rank_ofs_injective (Prod.ext hr ho))

/-! ## Claim C4: push/get round trip in a quiescent container -/

/-- C4: in a well-formed quiescent container, `push t` with non-zero `t`
returns the pre-call length as the claimed index `i`, leaves `len` at
`i + 1`, and a subsequent `get i` finds `t`. -/
theorem C4_push_get_roundtrip {s : DiskVec α} {t : α}
    (h1 : RankWF s) (h2 : LenWF s) (h3 : SizeWF s)
    (ht : t ≠ (Volatile.ZEROED : α)) :
    (push s t).2 = len s ∧
      len (push s t).1 = (push s t).2 + 1 ∧
      get (push s t).1 (push s t).2 = GetResult.found t := by
  have hofs := rank_ofs_ofs_lt s.len
  have h2' : (rank_ofs s.len).1 ≤ s.initialized := h2
  refine ⟨rfl, ?_, ?_⟩
  · show (push s t).1.len = s.len + 1
    rw [push_fst, writeSlot_len, growIfNeeded_len]
  · rw [push_snd, push_fst]
    by_cases hgrow : s.initialized ≤ (rank_ofs s.len).1
    · have hg := growIfNeeded_eq_of_le
        { s with len := s.len + 1 } (rank_ofs s.len).1 hgrow
      apply get_eq_found (format_debug (rank_ofs s.len).1,
        (List.replicate (2 ^ (rank_ofs s.len).1) (Volatile.ZEROED : α)).set
          (rank_ofs s.len).2 t)
      · rw [writeSlot_initialized, hg]
        show (rank_ofs s.len).1 < s.initialized + 1
        omega
      · rw [writeSlot_ranks_self, hg]
        dsimp only
        rw [if_pos rfl]
        rfl
      · exact List.get?_set_eq_of_lt t (by simpa using hofs)
      · exact ht
    · have hg := growIfNeeded_eq_of_lt
        { s with len := s.len + 1 } (rank_ofs s.len).1
        (Nat.not_le.mp hgrow)
      have hsome : (s.ranks (rank_ofs s.len).1).isSome :=
        (h1 _).mpr (Nat.not_le.mp hgrow)
      obtain ⟨pc, hpc⟩ := Option.isSome_iff_exists.mp hsome
      apply get_eq_found (pc.1, pc.2.set (rank_ofs s.len).2 t)
      · rw [writeSlot_initialized, hg]
        show (rank_ofs s.len).1 < s.initialized
        exact Nat.not_le.mp hgrow
      · rw [writeSlot_ranks_self, hg]
        show Option.map _ (s.ranks (rank_ofs s.len).1) = _
        rw [hpc]
        rfl
      · exact List.get?_set_eq_of_lt t (by rw [h3 _ pc hpc]; exact hofs)
      · exact ht

/-- C4 witness: pushing `5` into a freshly opened container claims index
`0`, leaves the length at `1`, and `get 0` finds `5`. -/
theorem C4_push_get_roundtrip_witness :
    (push (openDV (emptyDisk Nat)) 5).2 = len (openDV (emptyDisk Nat)) ∧
      len (push (openDV (emptyDisk Nat)) 5).1 =
        (push (openDV (emptyDisk Nat)) 5).2 + 1 ∧
      get (push (openDV (emptyDisk Nat)) 5).1
          (push (openDV (emptyDisk Nat)) 5).2 = GetResult.found 5 :=
  C4_push_get_roundtrip (openDV_rankWF (emptyDisk Nat))
    (openDV_lenWF (emptyDisk Nat))
    (fun _ pc h => Option.noConfusion h)
    (by decide)

/-! ## Claim C10: a successful push modifies only its own slot -/

/-- The slot write of `push` leaves every other readable index unchanged. -/
theorem push_get_frame {s : DiskVec α} (t : α) (h1 : RankWF s) {j : Nat}
    (hj : j ≠ s.len) (hmapped : (rank_ofs j).1 < s.initialized) :
    get (push s t).1 j = get s j := by
  rw [push_fst]
  by_cases hrk : (rank_ofs j).1 = (rank_ofs s.len).1
  · have hnogrow : (rank_ofs s.len).1 < s.initialized := by
      rw [← hrk]
      exact hmapped
    have hg := growIfNeeded_eq_of_lt
        { s with len := s.len + 1 } (rank_ofs s.len).1 hnogrow
    apply get_congr_slot
    · rw [writeSlot_initialized, hg]
    · rw [hrk, writeSlot_isSome, hg]
    · intro pc pc' hpc hpc'
      rw [hrk] at hpc hpc'
      rw [writeSlot_ranks_self, hg] at hpc
      have hpc2 : Option.map
          (fun pc => (pc.1, pc.2.set (rank_ofs s.len).2 t))
          (s.ranks (rank_ofs s.len).1) = some pc := hpc
      rw [hpc'] at hpc2
      have : (pc'.1, pc'.2.set (rank_ofs s.len).2 t) = pc :=
        Option.some.inj hpc2
      rw [← this]
      have hofs : (rank_ofs j).2 ≠ (rank_ofs s.len).2 := rank_ofs_ne_ofs hj hrk
      exact List.get?_set_ne t pc'.2 (fun h => hofs h.symm)
  · apply get_congr_slot
    · rw [writeSlot_initialized]
      unfold growIfNeeded
      split
      · show (rank_ofs j).1 < s.initialized + 1 ↔ (rank_ofs j).1 < s.initialized
        omega
      · exact Iff.rfl
    · rw [writeSlot_ranks_ne hrk]
      unfold growIfNeeded
      split
      · dsimp only
        rw [if_neg hrk]
      · rfl
    · intro pc pc' hpc hpc'
      rw [writeSlot_ranks_ne hrk] at hpc
      unfold growIfNeeded at hpc
      split at hpc
      · dsimp only at hpc
        rw [if_neg hrk] at hpc
        have : s.ranks (rank_ofs j).1 = some pc := hpc
        rw [hpc'] at this
        rw [Option.some.inj this]
      · have : s.ranks (rank_ofs j).1 = some pc := hpc
        rw [hpc'] at this
        rw [Option.some.inj this]

/-- C10: a successful `push` returning index `i` increases `len` by exactly
one, leaves `get j` unchanged for every other index `j` whose rank was
mapped before the call, keeps every previously installed rank mapping (same
backing file), and installs at most one new mapping, only at `i`'s rank. -/
theorem C10_push_frame {s : DiskVec α} (t : α) (h1 : RankWF s) :
    len (push s t).1 = len s + 1 ∧
      (∀ j : Nat, j ≠ (push s t).2 → (rank_ofs j).1 < s.initialized →
        get (push s t).1 j = get s j) ∧
      (∀ r : Nat, ∀ pc : String × List α, s.ranks r = some pc →
        ∃ d : List α, (push s t).1.ranks r = some (pc.1, d)) ∧
      (∀ r : Nat, s.ranks r = none → ((push s t).1.ranks r).isSome →
        r = (rank_ofs s.len).1) := by
  refine ⟨?_, fun j hj hm => push_get_frame t h1 hj hm, ?_, ?_⟩
  · show (push s t).1.len = s.len + 1
    rw [push_fst, writeSlot_len, growIfNeeded_len]
  · intro r pc hpc
    rw [push_fst]
    by_cases hr : r = (rank_ofs s.len).1
    · subst hr
      have hlt : (rank_ofs s.len).1 < s.initialized :=
        (h1 _).mp (by rw [hpc]; rfl)
      have hg := growIfNeeded_eq_of_lt
          { s with len := s.len + 1 } (rank_ofs s.len).1 hlt
      refine ⟨pc.2.set (rank_ofs s.len).2 t, ?_⟩
      rw [writeSlot_ranks_self, hg]
      show Option.map _ (s.ranks (rank_ofs s.len).1) = _
      rw [hpc]
      rfl
    · rw [writeSlot_ranks_ne hr]
      refine ⟨pc.2, ?_⟩
      unfold growIfNeeded
      split
      · dsimp only
        rw [if_neg hr]
        exact hpc
      · exact hpc
  · intro r hnone hsome
    by_contra hr
    rw [push_fst, writeSlot_isSome] at hsome
    unfold growIfNeeded at hsome
    split at hsome
    · dsimp only at hsome
      rw [if_neg hr, hnone] at hsome
      exact Bool.noConfusion hsome
    · dsimp only at hsome
      rw [hnone] at hsome
      exact Bool.noConfusion hsome

/-! ## File names -/

set_option maxRecDepth 20000 in
/-- The decimal names of the `RANKS` possible rank files are pairwise
distinct. -/
theorem format_display_nodup : ((List.range RANKS).map format_display).Nodup := by
  decide

theorem format_display_inj {r1 r2 : Nat} (h1 : r1 < RANKS) (h2 : r2 < RANKS)
    (h : format_display r1 = format_display r2) : r1 = r2 :=
  List.inj_on_of_nodup_map format_display_nodup
    (List.mem_range.mpr h1) (List.mem_range.mpr h2) h

/-! ## Closing and reopening -/

/-- If no rank in `L` is mapped to a file named `nm`, flushing the mappings
of `L` leaves file `nm` untouched. -/
theorem closeFold_not_mapped {s : DiskVec α} :
    ∀ L : List Nat, ∀ d : Disk α, ∀ nm : String,
      (∀ r ∈ L, ∀ pc : String × List α, s.ranks r = some pc → pc.1 ≠ nm) →
      (L.foldl (fun d r =>
        match s.ranks r with
        | some pc => diskWrite d pc.1 pc.2
        | none => d) d) nm = d nm := by
  intro L
  induction L with
  | nil => intro d nm _; rfl
  | cons a L ih =>
    intro d nm hL
    rw [List.foldl_cons]
    rw [ih _ nm (fun r hr => hL r (List.mem_cons_of_mem a hr))]
    cases ha : s.ranks a with
    | none => rfl
    | some pc =>
      show diskWrite d pc.1 pc.2 nm = d nm
      unfold diskWrite
      rw [if_neg (fun h => hL a (List.mem_cons_self a L) pc ha h.symm)]

/-- If rank `r0 ∈ L` is mapped to file `nm` and no other rank of `L` is,
flushing the mappings of `L` stores rank `r0`'s contents at `nm`. -/
theorem closeFold_mapped {s : DiskVec α} :
    ∀ L : List Nat, ∀ d : Disk α, ∀ r0 : Nat, ∀ c : List α, ∀ nm : String,
      r0 ∈ L → s.ranks r0 = some (nm, c) →
      (∀ r ∈ L, r ≠ r0 → ∀ pc : String × List α,
        s.ranks r = some pc → pc.1 ≠ nm) →
      (L.foldl (fun d r =>
        match s.ranks r with
        | some pc => diskWrite d pc.1 pc.2
        | none => d) d) nm = some c := by
  intro L
  induction L with
  | nil => intro d r0 c nm hmem; exact absurd hmem (List.not_mem_nil r0)
  | cons a L ih =>
    intro d r0 c nm hmem hr0 hothers
    rw [List.foldl_cons]
    by_cases ha : a = r0
    · subst ha
      rw [hr0]
      by_cases hmem' : a ∈ L
      · exact ih _ a c nm hmem' hr0
          (fun r hr hne => hothers r (List.mem_cons_of_mem a hr) hne)
      · rw [closeFold_not_mapped L _ nm
          (fun r hr pc hpc h => hothers r (List.mem_cons_of_mem a hr)
            (fun he => hmem' (he ▸ hr)) pc hpc h)]
        show diskWrite d nm c nm = some c
        unfold diskWrite
        rw [if_pos rfl]
    · have hmem' : r0 ∈ L := by
        rcases List.mem_cons.mp hmem with h | h
        · exact absurd h.symm ha
        · exact h
      cases has : s.ranks a with
      | none =>
        exact ih d r0 c nm hmem' hr0
          (fun r hr hne => hothers r (List.mem_cons_of_mem a hr) hne)
      | some pc =>
        exact ih _ r0 c nm hmem' hr0
          (fun r hr hne => hothers r (List.mem_cons_of_mem a hr) hne)

/-- After `vs` has been pushed into a fresh directory, dropping the
container leaves exactly the rank files `0 .. bitwidth n - 1` on disk, each
holding its reference contents. -/
theorem close_afterPushes {vs : List α} {s : DiskVec α}
    (h : AfterPushes vs s) (hK : bitwidth vs.length ≤ RANKS) :
    (∀ r : Nat, r < bitwidth vs.length →
      close s (emptyDisk α) (format_display r) = some (rankContent vs r)) ∧
    (∀ r : Nat, bitwidth vs.length ≤ r → r < RANKS →
      close s (emptyDisk α) (format_display r) = none) := by
  obtain ⟨hlen, hinit, hsome, hnone⟩ := h
  constructor
  · intro r hr
    unfold close
    apply closeFold_mapped (List.range RANKS) (emptyDisk α) r
    · exact List.mem_range.mpr (by omega)
    · exact hsome r hr
    · intro r' hr' hne pc hpc
      by_cases hlt : r' < bitwidth vs.length
      · rw [hsome r' hlt] at hpc
        rw [← Option.some.inj hpc]
        intro hc
        exact hne (format_display_inj (List.mem_range.mp hr') (by omega) hc)
      · rw [hnone r' (by omega)] at hpc
        exact Option.noConfusion hpc
  · intro r hr hR
    unfold close
    rw [closeFold_not_mapped (List.range RANKS) (emptyDisk α)
      (format_display r) ?_]
    · rfl
    · intro r' hr' pc hpc
      by_cases hlt : r' < bitwidth vs.length
      · rw [hsome r' hlt] at hpc
        rw [← Option.some.inj hpc]
        intro hc
        have := format_display_inj (List.mem_range.mp hr') hR hc
        omega
      · rw [hnone r' (by omega)] at hpc
        exact Option.noConfusion hpc

/-- Exact behavior of the open-time scan on a directory holding precisely
the rank files `0 .. K - 1`. -/
theorem openScan_exact (disk : Disk α) (K : Nat) (content : Nat → List α) :
    ∀ fuel rank n : Nat, ∀ ranks : Nat → Option (String × List α),
      rank ≤ K → K ≤ rank + fuel →
      (∀ r : Nat, rank ≤ r → r < K →
        disk (format_display r) = some (content r)) →
      (∀ r : Nat, K ≤ r → r < rank + fuel →
        disk (format_display r) = none) →
      (openScan disk ranks rank n fuel).2 = n + (K - rank) ∧
      (∀ r : Nat, (openScan disk ranks rank n fuel).1 r =
        if rank ≤ r ∧ r < K then some (format_display r, content r)
        else ranks r) := by
  intro fuel
  induction fuel with
  | zero =>
    intro rank n ranks h1 h2 _ _
    have hrk : rank = K := by omega
    subst hrk
    refine ⟨by show n = n + (rank - rank); omega, fun r => ?_⟩
    show ranks r = _
    rw [if_neg (by omega)]
  | succ fuel ih =>
    intro rank n ranks h1 h2 hsomeD hnoneD
    simp only [openScan]
    by_cases hrk : rank = K
    · subst hrk
      rw [hnoneD rank (Nat.le_refl rank) (by omega)]
      refine ⟨by show n = n + (rank - rank); omega, fun r => ?_⟩
      show ranks r = _
      rw [if_neg (by omega)]
    · have hlt : rank < K := by omega
      rw [hsomeD rank (Nat.le_refl rank) hlt]
      have := ih (rank + 1) (n + 1)
        (fun r => if r = rank then some (format_display rank, content rank)
          else ranks r)
        (by omega) (by omega)
        (fun r hra hrb => hsomeD r (by omega) hrb)
        (fun r hra hrb => hnoneD r hra (by omega))
      refine ⟨by rw [this.1]; omega, fun r => ?_⟩
      rw [this.2 r]
      by_cases hcond : rank ≤ r ∧ r < K
      · rw [if_pos hcond]
        by_cases hr : rank + 1 ≤ r ∧ r < K
        · rw [if_pos hr]
        · have hre : r = rank := by omega
          subst hre
          rw [if_neg hr]
          simp
      · rw [if_neg hcond]
        have hcond' : ¬(rank + 1 ≤ r ∧ r < K) := by omega
        rw [if_neg hcond']
        have hne : r ≠ rank := by omega
        dsimp only
        rw [if_neg hne]

/-! ## Claim C6: a push whose growth I/O fails leaves a permanent hole -/

/-- `set_via_mut` either leaves the state unchanged, or the guarded read saw
a non-zero value and the state is a bare slot write. -/
theorem set_via_mut_cases_strong (s : DiskVec α) (idx : Nat) (t : α) :
    set_via_mut s idx t = s ∨
      ((∃ pc : String × List α, ∃ v : α,
          s.ranks (rank_ofs idx).1 = some pc ∧
          pc.2.get? (rank_ofs idx).2 = some v ∧ v ≠ Volatile.ZEROED) ∧
        set_via_mut s idx t =
          writeSlot s (rank_ofs idx).1 (rank_ofs idx).2 t) := by
  unfold set_via_mut
  by_cases h : (rank_ofs idx).1 < s.initialized
  · rw [if_pos h]
    cases hrk : s.ranks (rank_ofs idx).1 with
    | none => exact Or.inl rfl
    | some pc =>
      dsimp only
      cases hg : pc.2.get? (rank_ofs idx).2 with
      | none => exact Or.inl rfl
      | some v =>
        dsimp only
        by_cases hz : v = Volatile.ZEROED
        · rw [if_pos hz]
          exact Or.inl rfl
        · rw [if_neg hz]
          exact Or.inr ⟨⟨pc, v, rfl, hg, hz⟩, rfl⟩
  · rw [if_neg h]
    exact Or.inl rfl

/-- Overwriting a slot other than `idx`'s preserves a hole at `idx`. -/
theorem holeSlot_writeSlot {s : DiskVec α} {idx : Nat} {K O : Nat} (t : α)
    (hne : ¬(K = (rank_ofs idx).1 ∧ O = (rank_ofs idx).2))
    (h : HoleSlot s idx) : HoleSlot (writeSlot s K O t) idx := by
  intro pc hpc
  by_cases hK : K = (rank_ofs idx).1
  · rw [hK, writeSlot_ranks_self] at hpc
    cases hs : s.ranks (rank_ofs idx).1 with
    | none =>
      rw [hs] at hpc
      exact Option.noConfusion hpc
    | some pc0 =>
      rw [hs] at hpc
      have hpc0 : (pc0.1, pc0.2.set O t) = pc := Option.some.inj hpc
      have hO : O ≠ (rank_ofs idx).2 := fun hO => hne ⟨hK, hO⟩
      rw [← hpc0]
      show (pc0.2.set O t).get? (rank_ofs idx).2 = none ∨ _
      rw [List.get?_set_ne t pc0.2 hO]
      exact h pc0 hs
  · rw [writeSlot_ranks_ne (fun hh => hK hh.symm)] at hpc
    exact h pc hpc

/-- Growth installs a zero-filled mapping, so it preserves a hole at any
index. -/
theorem holeSlot_grow {s : DiskVec α} {idx : Nat} (K : Nat)
    (h : HoleSlot s idx) : HoleSlot (growIfNeeded s K) idx := by
  unfold growIfNeeded
  split
  · intro pc hpc
    dsimp only at hpc
    by_cases hK : (rank_ofs idx).1 = K
    · rw [if_pos hK] at hpc
      have hpcv : ((format_debug K, List.replicate (2 ^ K)
          (Volatile.ZEROED : α)) : String × List α) = pc :=
        Option.some.inj hpc
      rw [← hpcv]
      show (List.replicate (2 ^ K) (Volatile.ZEROED : α)).get?
          (rank_ofs idx).2 = none ∨ _
      rw [List.get?_eq_getElem?, List.getElem?_replicate]
      split
      · exact Or.inr rfl
      · exact Or.inl rfl
    · rw [if_neg hK] at hpc
      exact h pc hpc
  · exact h

/-- Every state transition preserves a hole: later pushes claim larger
indices, growth zero-fills, and a mutation handle is never granted on a
zero slot. -/
theorem step_preserves_hole {s1 s2 : DiskVec α} {idx : Nat}
    (hs : Step s1 s2) (h : HoleAt s1 idx) : HoleAt s2 idx := by
  obtain ⟨hlen, hslot⟩ := h
  cases hs with
  | pushed t =>
    constructor
    · rw [push_fst, writeSlot_len, growIfNeeded_len]
      exact Nat.lt_succ_of_lt hlen
    · rw [push_fst]
      apply holeSlot_writeSlot
      · intro hc
        exact Nat.ne_of_gt hlen
          (rank_ofs_injective (Prod.ext hc.1 hc.2))
      · exact holeSlot_grow _ hslot
  | pushFailed hg =>
    exact ⟨Nat.lt_succ_of_lt hlen, hslot⟩
  | mutated j t =>
    rcases set_via_mut_cases_strong s1 j t with heq | ⟨⟨pc, v, hpc, hv, hz⟩, heq⟩
    · rw [heq]
      exact ⟨hlen, hslot⟩
    · rw [heq]
      refine ⟨hlen, ?_⟩
      apply holeSlot_writeSlot
      · intro hc
        have hj : j = idx :=
          rank_ofs_injective (Prod.ext hc.1 hc.2)
        subst hj
        rcases hslot pc hpc with h0 | h0 <;> rw [hv] at h0
        · exact Option.noConfusion h0
        · exact hz (Option.some.inj h0)
      · exact hslot

theorem steps_preserves_hole {s1 s2 : DiskVec α} {idx : Nat}
    (hs : Steps s1 s2) (h : HoleAt s1 idx) : HoleAt s2 idx := by
  induction hs with
  | refl => exact h
  | tail _ hstep ih => exact step_preserves_hole hstep ih

/-- `get` at a hole never returns a value. -/
theorem get_of_holeSlot {s : DiskVec α} {idx : Nat} (h : HoleSlot s idx)
    (v : α) : get s idx ≠ GetResult.found v := by
  unfold get
  by_cases hc : (rank_ofs idx).1 < s.initialized
  · rw [if_pos hc]
    cases hrk : s.ranks (rank_ofs idx).1 with
    | none => exact fun hh => GetResult.noConfusion hh
    | some pc =>
      dsimp only
      cases hg : pc.2.get? (rank_ofs idx).2 with
      | none => exact fun hh => GetResult.noConfusion hh
      | some w =>
        dsimp only
        rcases h pc hrk with h0 | h0 <;> rw [hg] at h0
        · exact Option.noConfusion h0
        · rw [if_pos (Option.some.inj h0)]
          exact fun hh => GetResult.noConfusion hh
  · rw [if_neg hc]
    exact fun hh => GetResult.noConfusion hh

/-- C6 counterexample to "get at the claimed index returns absent
thereafter": from a fresh container, a `push` whose growth fails claims
index `0`; the next `push` succeeds, grows rank `1` (not rank `0`) and makes
`initialized = 1`, after which `get 0` passes the `rank < initialized` check,
finds rank `0` unmapped and panics (`expect("accessing uninitialized
rank")`) instead of returning absent. -/
theorem C6_get_panics_after_later_push :
    (pushGrowFail (⟨fun _ => none, 0, 0⟩ : DiskVec Nat)).2 = 0 ∧
      Step (pushGrowFail (⟨fun _ => none, 0, 0⟩ : DiskVec Nat)).1
        (push (pushGrowFail (⟨fun _ => none, 0, 0⟩ : DiskVec Nat)).1 5).1 ∧
      get (push (pushGrowFail (⟨fun _ => none, 0, 0⟩ : DiskVec Nat)).1 5).1 0 =
        GetResult.panicked := by
  refine ⟨rfl, Step.pushed _ 5, ?_⟩
  decide

/-- C6 (amended): if `push` fails with an I/O error during growth (possible
only when the claimed rank is not yet initialized), then the length counter
has already been advanced by one, no mapping is installed, `initialized` is
untouched and no slot is written, and there is no rollback; `get` at the
claimed index returns absent immediately after the call, and never returns a
value thereafter — though after a later push grows a higher rank it may
panic on the never-created rank instead of returning absent. -/
theorem C6_grow_failure_leaves_hole {s : DiskVec α}
    (hwf : RankWF s) (hgrow : s.initialized ≤ (rank_ofs s.len).1) :
    (pushGrowFail s).2 = len s ∧
      len (pushGrowFail s).1 = len s + 1 ∧
      (pushGrowFail s).1.ranks = s.ranks ∧
      (pushGrowFail s).1.initialized = s.initialized ∧
      get (pushGrowFail s).1 (pushGrowFail s).2 = GetResult.absent ∧
      (∀ s'' : DiskVec α, Steps (pushGrowFail s).1 s'' →
        ∀ v : α, get s'' (pushGrowFail s).2 ≠ GetResult.found v) := by
  have hnone : s.ranks (rank_ofs s.len).1 = none := by
    cases hx : s.ranks (rank_ofs s.len).1 with
    | none => rfl
    | some pc =>
      have := (hwf _).mp (by rw [hx]; rfl)
      omega
  have hhole : HoleAt (pushGrowFail s).1 s.len := by
    refine ⟨Nat.lt_succ_self _, ?_⟩
    intro pc hpc
    have : s.ranks (rank_ofs s.len).1 = some pc := hpc
    rw [hnone] at this
    exact Option.noConfusion this
  refine ⟨rfl, rfl, rfl, rfl, ?_, ?_⟩
  · show get (pushGrowFail s).1 s.len = GetResult.absent
    unfold get
    rw [if_neg (by show ¬ (rank_ofs s.len).1 < s.initialized; omega)]
  · intro s'' hsteps v
    exact get_of_holeSlot (steps_preserves_hole hsteps hhole).2 v

/-- C6 witness: a grow failure on a fresh container claims index `0`,
advances the length to `1`, and `get 0` is absent immediately after; two
further successful pushes later, `get 0` still never finds a value. -/
theorem C6_grow_failure_leaves_hole_witness :
    get (pushGrowFail (⟨fun _ => none, 0, 0⟩ : DiskVec Nat)).1
        (pushGrowFail (⟨fun _ => none, 0, 0⟩ : DiskVec Nat)).2 =
      GetResult.absent ∧
    (∀ v : Nat, get (push (push (pushGrowFail
          (⟨fun _ => none, 0, 0⟩ : DiskVec Nat)).1 5).1 6).1
        (pushGrowFail (⟨fun _ => none, 0, 0⟩ : DiskVec Nat)).2 ≠
      GetResult.found v) :=
  ⟨(C6_grow_failure_leaves_hole (by intro r; simp) (by decide)).2.2.2.2.1,
    fun v => (C6_grow_failure_leaves_hole (by intro r; simp)
        (by decide)).2.2.2.2.2 _
      (Steps.tail (Steps.tail (Steps.refl _) (Step.pushed _ 5))
        (Step.pushed _ 6)) v⟩

/-- C10 witness: from the one-element reachable state, pushing `6` claims
index `1` and leaves `get 0` unchanged. -/
theorem C10_push_frame_witness :
    len (push (push (openDV (emptyDisk Nat)) 5).1 6).1 =
        len (push (openDV (emptyDisk Nat)) 5).1 + 1 ∧
      get (push (push (openDV (emptyDisk Nat)) 5).1 6).1 0 =
        get (push (openDV (emptyDisk Nat)) 5).1 0 :=
  ⟨(C10_push_frame 6 (push_preserves_inv 5 (openDV_rankWF (emptyDisk Nat))
      (openDV_lenWF (emptyDisk Nat))).1).1,
    (C10_push_frame 6 (push_preserves_inv 5 (openDV_rankWF (emptyDisk Nat))
        (openDV_lenWF (emptyDisk Nat))).1).2.1 0 (by decide) (by decide)⟩

/-! ## Claim C3: the recovered length on a contiguous prefix -/

/-- Indices between the bounds of rank `k` decompose into rank `k` with
offset relative to `min(k)`. -/
theorem rank_ofs_in_rank {k p : Nat} (h1 : 2 ^ k - 1 ≤ p)
    (h2 : p ≤ 2 ^ (k + 1) - 2) : rank_ofs p = (k, p - (2 ^ k - 1)) := by
  have hpow : 0 < 2 ^ k := Nat.pos_pow_of_pos k (by norm_num)
  have hpow2 := Nat.pow_succ 2 k
  have ho : p - (2 ^ k - 1) < 2 ^ k := by omega
  have hp : 2 ^ k - 1 + (p - (2 ^ k - 1)) = p := by omega
  have hx := rank_ofs_eq_of k (p - (2 ^ k - 1)) ho
  rw [hp] at hx
  exact hx

/-- Core specification of `recover_len` on a contiguous prefix. -/
theorem recover_len_spec {ranks : Nat → Option (String × List α)}
    {n_ranks : Nat} :
    (n_ranks = 0 → recover_len ranks n_ranks = 0) ∧
    (∀ k : Nat, ∀ pc : String × List α, ∀ m : Nat,
      n_ranks = k + 1 → ranks k = some pc → pc.2.length = 2 ^ k →
      m ≤ 2 ^ k →
      (∀ o : Nat, o < 2 ^ k →
        (pc.2.get? o ≠ some (Volatile.ZEROED : α) ↔ o < m)) →
      recover_len ranks n_ranks =
        if m < 2 ^ k then (min_max k).1 + m else (min_max k).2 + 1) := by
  constructor
  · intro h0
    subst h0
    rfl
  · intro k pc m hn hpc hlen hm hprefix
    subst hn
    have hpow : 0 < 2 ^ k := Nat.pos_pow_of_pos k (by norm_num)
    have hpow2 := Nat.pow_succ 2 k
    have hmm1 : (min_max k).1 = 2 ^ k - 1 := by rw [min_max_eq]
    have hmm2 : (min_max k).2 = 2 ^ (k + 1) - 2 := by rw [min_max_eq]
    unfold recover_len
    rw [if_pos (Nat.succ_pos k)]
    have hk : k + 1 - 1 = k := rfl
    rw [hk, hmm1, hmm2]
    have hsearch : searchLoop (slotOf ranks)
        (2 ^ (k + 1) - 2 - (2 ^ k - 1) + 1) (2 ^ k - 1) (2 ^ (k + 1) - 2)
          = 2 ^ k - 1 + m := by
      apply searchLoop_correct (slotOf ranks) (2 ^ k - 1 + m)
      · omega
      · omega
      · omega
      · omega
      · intro p hp1 hp2
        have hro := rank_ofs_in_rank hp1 hp2
        have ho : p - (2 ^ k - 1) < 2 ^ k := by omega
        have hread : slotOf ranks p =
            (pc.2.get? (p - (2 ^ k - 1))).getD Volatile.ZEROED := by
          unfold slotOf
          rw [hro]
          dsimp only
          rw [hpc]
        have hw : pc.2.get? (p - (2 ^ k - 1)) =
            some (pc.2.get ⟨p - (2 ^ k - 1), by rw [hlen]; exact ho⟩) :=
          List.get?_eq_get _
        rw [hread, hw]
        have := hprefix (p - (2 ^ k - 1)) ho
        rw [hw] at this
        simp only [Option.getD_some]
        constructor
        · intro hne
          have : p - (2 ^ k - 1) < m := this.mp (by
            intro hc
            exact hne (Option.some.inj hc))
          omega
        · intro hlt
          intro hc
          have := this.mpr (by omega)
          exact this (by rw [hc])
    rw [hsearch]
    by_cases hcase : m < 2 ^ k
    · rw [if_pos hcase]
    · rw [if_neg hcase]
      omega

/-- C3: the length recovered at open time is `0` when no rank file is
mapped; and when `n_ranks = k + 1` and the non-zero slots of the highest
mapped rank `k` form a contiguous prefix of length `m` starting at
`min(k)`, the recovered length is the lowest logical index of rank `k`
whose slot is zero — `min(k) + m` — or `max(k) + 1` when every slot of
rank `k` is non-zero. -/
theorem C3_recovered_length {ranks : Nat → Option (String × List α)}
    {n_ranks : Nat} :
    (n_ranks = 0 → recover_len ranks n_ranks = 0) ∧
    (∀ k : Nat, ∀ pc : String × List α, ∀ m : Nat,
      n_ranks = k + 1 → ranks k = some pc → pc.2.length = 2 ^ k →
      m ≤ 2 ^ k →
      (∀ o : Nat, o < 2 ^ k →
        (pc.2.get? o ≠ some (Volatile.ZEROED : α) ↔ o < m)) →
      recover_len ranks n_ranks =
        if m < 2 ^ k then (min_max k).1 + m else (min_max k).2 + 1) :=
  recover_len_spec

/-- C3 witness: two mapped ranks; rank `1` holds one non-zero slot followed
by a zero slot, so the recovered length is `min(1) + 1 = 2`. -/
theorem C3_recovered_length_witness :
    recover_len
        (fun r => if r = 1 then some ("1", [(7 : Nat), 0])
          else if r = 0 then some ("0", [9]) else none) 2 =
      if 1 < 2 ^ 1 then (min_max 1).1 + 1 else (min_max 1).2 + 1 :=
  C3_recovered_length.2 1 ("1", [7, 0]) 1 rfl rfl rfl (by decide)
    (by decide)

/-- The fields of an opened container. -/
theorem openDV_ranks (disk : Disk α) :
    (openDV disk).ranks = (openScan disk (fun _ => none) 0 0 RANKS).1 := rfl

theorem openDV_initialized (disk : Disk α) :
    (openDV disk).initialized =
      (openScan disk (fun _ => none) 0 0 RANKS).2 := rfl

theorem openDV_len (disk : Disk α) :
    (openDV disk).len =
      recover_len (openScan disk (fun _ => none) 0 0 RANKS).1
        (openScan disk (fun _ => none) 0 0 RANKS).2 := rfl

/-! ## Contents of the ranks after a sequence of pushes -/

theorem rankContent_length (vs : List α) (r : Nat) :
    (rankContent vs r).length = 2 ^ r := by
  unfold rankContent
  rw [List.length_map, List.length_range]

theorem rankContent_get?_lt {o r : Nat} (ho : o < 2 ^ r) (vs : List α) :
    (rankContent vs r).get? o = some (slotValue vs (2 ^ r - 1 + o)) := by
  unfold rankContent
  rw [List.get?_map, List.get?_range ho]
  rfl

theorem rankContent_get?_ge {o r : Nat} (ho : 2 ^ r ≤ o) (vs : List α) :
    (rankContent vs r).get? o = none := by
  apply List.get?_eq_none.mpr
  rw [rankContent_length]
  exact ho

theorem slotValue_append_ne {us : List α} {v : α} {idx : Nat}
    (h : idx ≠ us.length) : slotValue (us ++ [v]) idx = slotValue us idx := by
  unfold slotValue
  rcases Nat.lt_or_ge idx us.length with hlt | hge
  · rw [List.get?_append hlt]
  · have h1 : us.get? idx = none := List.get?_eq_none.mpr hge
    have h2 : (us ++ [v]).get? idx = none := by
      apply List.get?_eq_none.mpr
      rw [List.length_append, List.length_singleton]
      omega
    rw [h1, h2]

theorem slotValue_append_self (us : List α) (v : α) :
    slotValue (us ++ [v]) us.length = v := by
  unfold slotValue
  rw [List.get?_concat_length]
  rfl

/-- Appending a value does not change the contents of any rank other than
the appended index's rank. -/
theorem rankContent_append_ne {us : List α} {v : α} {r : Nat}
    (h : r ≠ (rank_ofs us.length).1) :
    rankContent (us ++ [v]) r = rankContent us r := by
  apply List.ext_get?
  intro o
  rcases Nat.lt_or_ge o (2 ^ r) with ho | ho
  · rw [rankContent_get?_lt ho, rankContent_get?_lt ho]
    congr 1
    apply slotValue_append_ne
    intro hc
    rw [← hc] at h
    rw [rank_ofs_eq_of r o ho] at h
    exact h rfl
  · rw [rankContent_get?_ge ho, rankContent_get?_ge ho]

/-- The zero-filled fresh rank with its claimed slot written equals the
reference contents when the append crosses into a new rank
(`us.length + 1 = 2 ^ K`). -/
theorem rankContent_append_grow {us : List α} {v : α} {K : Nat}
    (hpow : us.length + 1 = 2 ^ K) :
    (List.replicate (2 ^ K) (Volatile.ZEROED : α)).set 0 v =
      rankContent (us ++ [v]) K := by
  have hlen0 : (0 : Nat) < 2 ^ K := Nat.pos_pow_of_pos K (by norm_num)
  apply List.ext_get?
  intro o
  rcases Nat.lt_or_ge o (2 ^ K) with ho | ho
  · rw [rankContent_get?_lt ho]
    rcases Nat.eq_zero_or_pos o with h0 | h0
    · subst h0
      rw [List.get?_set_eq_of_lt v (by rw [List.length_replicate]; exact hlen0)]
      have hidx : 2 ^ K - 1 + 0 = us.length := by omega
      rw [hidx, slotValue_append_self]
    · rw [List.get?_set_ne v _ (by omega)]
      rw [List.get?_eq_getElem?, List.getElem?_replicate, if_pos ho]
      have hidx : us.length < 2 ^ K - 1 + o := by omega
      unfold slotValue
      have : (us ++ [v]).get? (2 ^ K - 1 + o) = none := by
        apply List.get?_eq_none.mpr
        rw [List.length_append, List.length_singleton]
        omega
      rw [this]
      rfl
  · rw [rankContent_get?_ge ho]
    apply List.get?_eq_none.mpr
    rw [List.length_set, List.length_replicate]
    exact ho

/-- Writing the claimed slot of an already-mapped rank yields the reference
contents after the append. -/
theorem rankContent_append_write {us : List α} {v : α}
    (hK : 2 ^ (rank_ofs us.length).1 - 1 + (rank_ofs us.length).2 =
      us.length) :
    (rankContent us (rank_ofs us.length).1).set (rank_ofs us.length).2 v =
      rankContent (us ++ [v]) (rank_ofs us.length).1 := by
  have hofs := rank_ofs_ofs_lt us.length
  apply List.ext_get?
  intro o
  rcases Nat.lt_or_ge o (2 ^ (rank_ofs us.length).1) with ho | ho
  · rw [rankContent_get?_lt ho]
    by_cases hO : o = (rank_ofs us.length).2
    · subst hO
      rw [List.get?_set_eq_of_lt v (by rw [rankContent_length]; exact ho)]
      rw [hK, slotValue_append_self]
    · rw [List.get?_set_ne v _ (fun h => hO h.symm)]
      rw [rankContent_get?_lt ho]
      congr 1
      refine (slotValue_append_ne ?_).symm
      intro hc
      have := rank_ofs_eq_of (rank_ofs us.length).1 o ho
      rw [hc] at this
      exact hO (congrArg Prod.snd this).symm
  · rw [rankContent_get?_ge ho]
    apply List.get?_eq_none.mpr
    rw [List.length_set, rankContent_length]
    exact ho

/-! ## The state after a sequence of pushes into a fresh container -/

theorem bitwidth_lt (n : Nat) : n < 2 ^ bitwidth n := by
  rw [bitwidth_eq_size]
  exact Nat.lt_size_self n

theorem bitwidth_le_of_lt_pow {n k : Nat} (h : n < 2 ^ k) : bitwidth n ≤ k := by
  rw [bitwidth_eq_size]
  exact Nat.size_le.mpr h

theorem pow_le_of_bitwidth {m n : Nat} (h : m < bitwidth n) : 2 ^ m ≤ n := by
  rw [bitwidth_eq_size] at h
  exact Nat.lt_size.mp h

theorem bitwidth_mono {m n : Nat} (h : m ≤ n) : bitwidth m ≤ bitwidth n := by
  rw [bitwidth_eq_size, bitwidth_eq_size]
  exact Nat.size_le_size h

theorem bitwidth_succ_le (n : Nat) : bitwidth (n + 1) ≤ bitwidth n + 1 := by
  apply bitwidth_le_of_lt_pow
  have h1 := bitwidth_lt n
  have h2 := Nat.pow_succ 2 (bitwidth n)
  omega

theorem bitwidth_pos {n : Nat} (h : 0 < n) : 0 < bitwidth n := by
  rw [bitwidth_eq_size]
  exact Nat.size_pos.mpr h

/-- One push extends the reference state by its value. -/
theorem afterPushes_step {us : List α} {s : DiskVec α} (v : α)
    (h : AfterPushes us s) :
    (push s v).2 = us.length ∧ AfterPushes (us ++ [v]) (push s v).1 := by
  obtain ⟨hlen, hinit, hsome, hnone⟩ := h
  have happlen : (us ++ [v]).length = us.length + 1 := by
    rw [List.length_append, List.length_singleton]
  have hKdef : (rank_ofs us.length).1 = bitwidth (us.length + 1) - 1 := by
    simp [rank_ofs]
  have hOdef : (rank_ofs us.length).2 =
      us.length + 1 - 2 ^ (rank_ofs us.length).1 := by
    simp [rank_ofs]
  have hofs := rank_ofs_ofs_lt us.length
  have hbpos : 0 < bitwidth (us.length + 1) := bitwidth_pos (Nat.succ_pos _)
  have hble := bitwidth_succ_le us.length
  have hbmono : bitwidth us.length ≤ bitwidth (us.length + 1) :=
    bitwidth_mono (Nat.le_succ us.length)
  have hpow1 : 0 < 2 ^ (rank_ofs us.length).1 :=
    Nat.pos_pow_of_pos _ (by norm_num)
  have hrecomp : 2 ^ (rank_ofs us.length).1 - 1 + (rank_ofs us.length).2 =
      us.length := by
    have := rank_ofs_recompose us.length
    omega
  refine ⟨by rw [push_snd, hlen], ?_, ?_, ?_, ?_⟩
  · rw [push_fst, writeSlot_len, growIfNeeded_len]
    show s.len + 1 = (us ++ [v]).length
    rw [hlen, happlen]
  · rw [push_fst, writeSlot_initialized, hlen]
    by_cases hgrow : s.initialized ≤ (rank_ofs us.length).1
    · have hg := growIfNeeded_eq_of_le
        { s with len := us.length + 1 } (rank_ofs us.length).1
        hgrow
      rw [hg]
      show s.initialized + 1 = bitwidth (us ++ [v]).length
      rw [hinit, happlen]
      rw [hinit, hKdef] at hgrow
      omega
    · have hg := growIfNeeded_eq_of_lt
        { s with len := us.length + 1 } (rank_ofs us.length).1
        (Nat.not_le.mp hgrow)
      rw [hg]
      show s.initialized = bitwidth (us ++ [v]).length
      rw [hinit, happlen]
      rw [hinit, hKdef] at hgrow
      omega
  · intro r hr
    rw [happlen] at hr
    rw [push_fst, hlen]
    by_cases hgrow : s.initialized ≤ (rank_ofs us.length).1
    · have hg := growIfNeeded_eq_of_le
        { s with len := us.length + 1 } (rank_ofs us.length).1
        hgrow
      rw [hinit, hKdef] at hgrow
      have heq : bitwidth (us.length + 1) = bitwidth us.length + 1 := by
        omega
      have hKb : (rank_ofs us.length).1 = bitwidth us.length := by
        rw [hKdef, heq]
        omega
      have hpow : us.length + 1 = 2 ^ (rank_ofs us.length).1 := by
        have h1 := bitwidth_lt us.length
        have h2 : 2 ^ (bitwidth (us.length + 1) - 1) ≤ us.length + 1 := by
          rcases Nat.eq_zero_or_pos (bitwidth (us.length + 1) - 1) with hz | hp
          · rw [hz]
            omega
          · exact pow_le_of_bitwidth (by omega)
        rw [hKb]
        rw [heq] at h2
        simp only [Nat.add_sub_cancel] at h2
        omega
      have hO0 : (rank_ofs us.length).2 = 0 := by
        rw [hOdef]
        omega
      by_cases hrK : r = (rank_ofs us.length).1
      · subst hrK
        rw [writeSlot_ranks_self, hg]
        dsimp only
        rw [if_pos rfl]
        show some (format_debug _, _) = _
        rw [hO0, rankContent_append_grow hpow]
      · rw [writeSlot_ranks_ne hrK, hg]
        dsimp only
        rw [if_neg hrK]
        show s.ranks r = _
        have hrlt : r < bitwidth us.length := by
          rw [hKb] at hrK
          omega
        rw [hsome r hrlt, rankContent_append_ne hrK]
    · have hg := growIfNeeded_eq_of_lt
        { s with len := us.length + 1 } (rank_ofs us.length).1
        (Nat.not_le.mp hgrow)
      rw [hinit, hKdef] at hgrow
      have heq : bitwidth (us.length + 1) = bitwidth us.length := by
        omega
      by_cases hrK : r = (rank_ofs us.length).1
      · subst hrK
        rw [writeSlot_ranks_self, hg]
        show Option.map _ (s.ranks (rank_ofs us.length).1) = _
        have hrlt : (rank_ofs us.length).1 < bitwidth us.length := by
          rw [hKdef]
          omega
        rw [hsome _ hrlt]
        show some (format_debug (rank_ofs us.length).1,
            (rankContent us (rank_ofs us.length).1).set
              (rank_ofs us.length).2 v) = _
        rw [rankContent_append_write hrecomp]
      · rw [writeSlot_ranks_ne hrK, hg]
        show s.ranks r = _
        have hrlt : r < bitwidth us.length := by
          omega
        rw [hsome r hrlt, rankContent_append_ne hrK]
  · intro r hr
    rw [happlen] at hr
    rw [push_fst, hlen]
    have hrK : r ≠ (rank_ofs us.length).1 := by
      rw [hKdef]
      omega
    rw [writeSlot_ranks_ne hrK]
    by_cases hgrow : s.initialized ≤ (rank_ofs us.length).1
    · have hg := growIfNeeded_eq_of_le
        { s with len := us.length + 1 } (rank_ofs us.length).1
        hgrow
      rw [hg]
      dsimp only
      rw [if_neg hrK]
      show s.ranks r = none
      apply hnone
      rw [hinit, hKdef] at hgrow
      omega
    · have hg := growIfNeeded_eq_of_lt
        { s with len := us.length + 1 } (rank_ofs us.length).1
        (Nat.not_le.mp hgrow)
      rw [hg]
      show s.ranks r = none
      apply hnone
      rw [hinit, hKdef] at hgrow
      omega

/-- The freshly opened container is the reference state of no pushes. -/
theorem afterPushes_nil : AfterPushes ([] : List α) (openDV (emptyDisk α)) :=
  ⟨rfl, rfl, fun r hr => absurd hr (by simp [bitwidth, bitwidthAux]),
    fun _ _ => rfl⟩

/-- Pushing a list of values from a reference state reaches the extended
reference state. -/
theorem pushAll_afterPushes :
    ∀ vs us : List α, ∀ s : DiskVec α, AfterPushes us s →
      AfterPushes (us ++ vs) (pushAll s vs) := by
  intro vs
  induction vs with
  | nil =>
    intro us s h
    simpa using h
  | cons v vs ih =>
    intro us s h
    have hstep := afterPushes_step v h
    have hnext := ih (us ++ [v]) (push s v).1 hstep.2
    show AfterPushes (us ++ v :: vs) (pushAll (push s v).1 vs)
    rw [List.append_cons]
    exact hnext

/-! ## Claim C1: persistence across close and reopen -/

/-- C1: pushing any sequence of non-zero values into a container opened on
a fresh directory (within the capacity of the 128-rank table), closing it
and reopening the same directory recovers the same length, and `get i`
finds the `i`-th pushed value for every `i` below the length. -/
theorem C1_persistence_roundtrip (vs : List α)
    (hnz : ∀ v ∈ vs, v ≠ (Volatile.ZEROED : α))
    (hcap : vs.length ≤ 2 ^ RANKS - 1) :
    len (openDV (close (pushAll (openDV (emptyDisk α)) vs) (emptyDisk α)))
        = vs.length ∧
      ∀ i : Nat, ∀ hi : i < vs.length,
        get (openDV (close (pushAll (openDV (emptyDisk α)) vs)
            (emptyDisk α))) i = GetResult.found (vs.get ⟨i, hi⟩) := by
  have hAP : AfterPushes vs (pushAll (openDV (emptyDisk α)) vs) := by
    have := pushAll_afterPushes vs [] (openDV (emptyDisk α)) afterPushes_nil
    simpa using this
  have h2RANKS : (1 : Nat) ≤ 2 ^ RANKS := Nat.one_le_two_pow
  have hK : bitwidth vs.length ≤ RANKS := bitwidth_le_of_lt_pow (by omega)
  obtain ⟨hd1, hd2⟩ := close_afterPushes hAP hK
  obtain ⟨hscan2, hscan1⟩ := openScan_exact
    (close (pushAll (openDV (emptyDisk α)) vs) (emptyDisk α))
    (bitwidth vs.length) (rankContent vs) RANKS 0 0 (fun _ => none)
    (Nat.zero_le _) (by omega)
    (fun r _ hr => hd1 r hr)
    (fun r h1 h2 => hd2 r h1 (by omega))
  have hn_ranks : (openScan
      (close (pushAll (openDV (emptyDisk α)) vs) (emptyDisk α))
      (fun _ => none) 0 0 RANKS).2 = bitwidth vs.length := by
    rw [hscan2]
    omega
  have hranks : ∀ r : Nat, r < bitwidth vs.length →
      (openScan (close (pushAll (openDV (emptyDisk α)) vs) (emptyDisk α))
        (fun _ => none) 0 0 RANKS).1 r =
      some (format_display r, rankContent vs r) := by
    intro r hr
    rw [hscan1 r, if_pos ⟨Nat.zero_le r, hr⟩]
  constructor
  · unfold len
    rw [openDV_len, hn_ranks]
    rcases Nat.eq_zero_or_pos vs.length with hz | hpos
    · rw [hz]
      rfl
    · have hbpos : 0 < bitwidth vs.length := bitwidth_pos hpos
      have hk1 : bitwidth vs.length = bitwidth vs.length - 1 + 1 := by omega
      have hp1 : 2 ^ (bitwidth vs.length - 1) ≤ vs.length :=
        pow_le_of_bitwidth (by omega)
      have hp2 : vs.length < 2 ^ bitwidth vs.length := bitwidth_lt _
      have hp3 : 2 ^ bitwidth vs.length =
          2 ^ (bitwidth vs.length - 1) * 2 := by
        conv_lhs => rw [hk1]
        exact Nat.pow_succ 2 _
      have hpow1 : (1 : Nat) ≤ 2 ^ (bitwidth vs.length - 1) :=
        Nat.one_le_two_pow
      have hprefix : ∀ o : Nat, o < 2 ^ (bitwidth vs.length - 1) →
          ((rankContent vs (bitwidth vs.length - 1)).get? o ≠
            some (Volatile.ZEROED : α) ↔
          o < vs.length - (2 ^ (bitwidth vs.length - 1) - 1)) := by
        intro o ho
        rw [rankContent_get?_lt ho]
        by_cases hidx : 2 ^ (bitwidth vs.length - 1) - 1 + o < vs.length
        · have hval : slotValue vs (2 ^ (bitwidth vs.length - 1) - 1 + o) =
              vs.get ⟨2 ^ (bitwidth vs.length - 1) - 1 + o, hidx⟩ := by
            unfold slotValue
            rw [List.get?_eq_get hidx]
            rfl
          rw [hval]
          exact iff_of_true
            (fun hc => hnz _ (List.get_mem vs _ _)
              (Option.some.inj hc))
            (by omega)
        · have hval : slotValue vs (2 ^ (bitwidth vs.length - 1) - 1 + o) =
              Volatile.ZEROED := by
            unfold slotValue
            rw [List.get?_eq_none.mpr (by omega)]
            rfl
          rw [hval]
          exact iff_of_false (fun hc => hc rfl) (by omega)
      have hrec := recover_len_spec.2 (bitwidth vs.length - 1)
        (format_display (bitwidth vs.length - 1),
          rankContent vs (bitwidth vs.length - 1))
        (vs.length - (2 ^ (bitwidth vs.length - 1) - 1))
        hk1 (hranks _ (by omega)) (rankContent_length vs _)
        (by omega) hprefix
      rw [hrec]
      have hmm1 : (min_max (bitwidth vs.length - 1)).1 =
          2 ^ (bitwidth vs.length - 1) - 1 := by rw [min_max_eq]
      have hmm2 : (min_max (bitwidth vs.length - 1)).2 =
          2 ^ (bitwidth vs.length - 1 + 1) - 2 := by rw [min_max_eq]
      have hk2 : 2 ^ (bitwidth vs.length - 1 + 1) = 2 ^ bitwidth vs.length := by
        rw [← hk1]
      by_cases hcase :
          vs.length - (2 ^ (bitwidth vs.length - 1) - 1) <
            2 ^ (bitwidth vs.length - 1)
      · rw [if_pos hcase, hmm1]
        omega
      · rw [if_neg hcase, hmm2, hk2]
        omega
  · intro i hi
    have hKdef : (rank_ofs i).1 = bitwidth (i + 1) - 1 := by
      simp [rank_ofs]
    have hrlt : (rank_ofs i).1 < bitwidth vs.length := by
      have h1 : bitwidth (i + 1) ≤ bitwidth vs.length :=
        bitwidth_mono (by omega)
      have hbp : 0 < bitwidth (i + 1) := bitwidth_pos (Nat.succ_pos i)
      omega
    have hofs := rank_ofs_ofs_lt i
    apply get_eq_found
      (format_display (rank_ofs i).1, rankContent vs (rank_ofs i).1)
    · rw [openDV_initialized, hn_ranks]
      exact hrlt
    · rw [openDV_ranks]
      exact hranks _ hrlt
    · rw [rankContent_get?_lt hofs]
      have hpow1 : (1 : Nat) ≤ 2 ^ (rank_ofs i).1 := Nat.one_le_two_pow
      have hidx : 2 ^ (rank_ofs i).1 - 1 + (rank_ofs i).2 = i := by
        have := rank_ofs_recompose i
        omega
      rw [hidx]
      show some (slotValue vs i) = _
      unfold slotValue
      rw [List.get?_eq_get hi]
      rfl
    · exact hnz _ (List.get_mem vs _ _)

/-- C1 witness: pushing `[1, 2, 3]` into a fresh directory, closing and
reopening recovers length `3` and the middle value. -/
theorem C1_persistence_roundtrip_witness :
    len (openDV (close (pushAll (openDV (emptyDisk Nat)) [1, 2, 3])
        (emptyDisk Nat))) = 3 ∧
      get (openDV (close (pushAll (openDV (emptyDisk Nat)) [1, 2, 3])
          (emptyDisk Nat))) 1 = GetResult.found 2 :=
  ⟨(C1_persistence_roundtrip [1, 2, 3] (by decide) (by decide)).1,
    (C1_persistence_roundtrip [1, 2, 3] (by decide) (by decide)).2 1
      (by decide)⟩

/-! ## Claim C2: growth-time versus open-time file names -/

/-- C2 counterexample: at rank `0` the file name `push` uses during growth
(`format!("{:?}", rank)`, src/lib.rs line 246) is the very same string as the
decimal file name `new` probes for (`format!("{}", rank)`, src/lib.rs line
125): Rust renders unsigned integers identically under `Debug` and
`Display`, so the two names do not differ. -/
theorem C2_growth_name_equals_open_name_at_zero :
    format_debug 0 = format_display 0 := rfl

/-- C2 (amended): for every rank `r`, the file name under which `push`
creates rank `r`'s file during growth (debug formatting) is identical to the
decimal file name that `new` probes for rank `r`, so restore does find the
files created during growth. -/
theorem C2_amended_growth_name_eq_open_name (r : Nat) :
    format_debug r = format_display r := rfl

/-! ## Claim C5: the index algebra matches its reference definition -/

/-- C5: `decompose` (`rank_ofs`) satisfies the reference examples, `bounds`
(`min_max`) satisfies its closed form, and for every `i < 2 ^ RANKS - 1`
recomposing `rank_ofs i = (r, o)` as `2 ^ r + o - 1` yields `i` with
`o < 2 ^ r`. -/
theorem C5_index_algebra :
    rank_ofs 0 = (0, 0) ∧ rank_ofs 1 = (1, 0) ∧ rank_ofs 2 = (1, 1) ∧
    rank_ofs 3 = (2, 0) ∧ rank_ofs 6 = (2, 3) ∧
    min_max 0 = (0, 0) ∧
    (∀ r : Nat, 0 < r → min_max r = (2 ^ r - 1, 2 ^ (r + 1) - 2)) ∧
    (∀ i : Nat, i < 2 ^ RANKS - 1 →
      2 ^ (rank_ofs i).1 + (rank_ofs i).2 - 1 = i ∧
        (rank_ofs i).2 < 2 ^ (rank_ofs i).1) := by
  refine ⟨by decide, by decide, by decide, by decide, by decide, by decide,
    fun r hr => min_max_eq r, fun i _ => ⟨rank_ofs_recompose i, rank_ofs_ofs_lt i⟩⟩

/-- C5 witness: the theorem applied at the concrete inputs `r = 4` and
`i = 6`. -/
theorem C5_index_algebra_witness :
    min_max 4 = (2 ^ 4 - 1, 2 ^ 5 - 2) ∧
    2 ^ (rank_ofs 6).1 + (rank_ofs 6).2 - 1 = 6 ∧
      (rank_ofs 6).2 < 2 ^ (rank_ofs 6).1 :=
  ⟨C5_index_algebra.2.2.2.2.2.2.1 4 (by decide),
    C5_index_algebra.2.2.2.2.2.2.2 6 (by decide)⟩

/-! ## Claim C8: totality of the index algebra on `r < 128`, `i < 2^128 - 1` -/

/-- C8 counterexample: on the 64-bit platform the crate targets, `min_max`
already overflows at rank `63 < RANKS` (the intermediate
`2usize.pow(rank + 1)` is `2 ^ 64`), and `rank_ofs` overflows at
`i = 2 ^ 64 - 1 < 2 ^ RANKS - 1` (the increment `index + 1` is `2 ^ 64`),
so neither function is total on the claimed domains. -/
theorem C8_overflow_at_63 :
    63 < RANKS ∧ min_max_checked 63 = none ∧
    2 ^ 64 - 1 < 2 ^ RANKS - 1 ∧ rank_ofs_checked (2 ^ 64 - 1) = none := by
  refine ⟨by norm_num [RANKS], ?_, by norm_num [RANKS], ?_⟩
  · simp [min_max_checked, pow2_checked, sub_checked, USIZE_BITS]
  · simp [rank_ofs_checked, USIZE_BITS]

/-- C8 (amended): on a 64-bit platform the pure index-algebra functions are
total on the domains representable in the machine arithmetic: `min_max r`
computes without failure or overflow for every `r < 63` (agreeing with the
idealized `min_max`), and `rank_ofs i` computes without failure or overflow
for every `i < 2 ^ 64 - 1` (agreeing with the idealized `rank_ofs`). -/
theorem C8_amended_total :
    (∀ r : Nat, r < 63 → min_max_checked r = some (min_max r)) ∧
    (∀ i : Nat, i < 2 ^ USIZE_BITS - 1 →
      rank_ofs_checked i = some (rank_ofs i)) := by
  constructor
  · intro r hr
    rcases Nat.eq_zero_or_pos r with h0 | h0
    · subst h0; decide
    · have hr1 : 2 ^ r < 2 ^ USIZE_BITS := by
        apply Nat.pow_lt_pow_right (by norm_num)
        simp [USIZE_BITS]; omega
      have hr2 : 2 ^ (r + 1) < 2 ^ USIZE_BITS := by
        apply Nat.pow_lt_pow_right (by norm_num)
        simp [USIZE_BITS]; omega
      have hp1 : (1 : Nat) ≤ 2 ^ r := Nat.one_le_two_pow
      have hp2 : (2 : Nat) ≤ 2 ^ (r + 1) := by
        calc (2 : Nat) = 2 ^ 1 := rfl
        _ ≤ 2 ^ (r + 1) := Nat.pow_le_pow_right (by norm_num) (by omega)
      rw [min_max_eq]
      simp [min_max_checked, pow2_checked, sub_checked, hr1, hr2, hp1, hp2,
        Nat.pos_iff_ne_zero.mp h0]
  · intro i hi
    have h1 : i + 1 < 2 ^ USIZE_BITS := by
      have : (1 : Nat) ≤ 2 ^ USIZE_BITS := Nat.one_le_two_pow
      omega
    have h2 : 2 ^ (rank_ofs i).1 < 2 ^ USIZE_BITS := by
      calc 2 ^ (rank_ofs i).1 ≤ i + 1 := (rank_ofs_spec i).1
      _ < 2 ^ USIZE_BITS := h1
    unfold rank_ofs_checked
    rw [if_pos h1]
    have : pow2_checked (bitwidth (i + 1) - 1) = some (2 ^ (bitwidth (i + 1) - 1)) := by
      unfold pow2_checked
      rw [if_pos]
      simpa [rank_ofs] using h2
    simp only [this, rank_ofs]

/-- C8 witness: the amended theorem applied at the concrete inputs `r = 5`
and `i = 6`. -/
theorem C8_amended_total_witness :
    min_max_checked 5 = some (min_max 5) ∧
    rank_ofs_checked 6 = some (rank_ofs 6) :=
  ⟨C8_amended_total.1 5 (by decide), C8_amended_total.2 6 (by decide)⟩

end DiskvecModel
